import Mathlib

/-!
Verification of the xbstrap plan engine and its utility functions.

Each definition below is a shallow embedding of a function of the
`xbstrap` source tree (file and line references are given in the doc
comments).  Machine integers are modelled as `Nat`/`Int`; Python
exceptions are modelled with `Except String`; loops that the source
terminates by exhausting a finite key universe are modelled with an
explicit fuel argument (running out of fuel is a failure, so theorems
conditioned on success are conditioned on the real, terminating runs).
-/

namespace Xbstrap

/-! ## Definitions: shallow embedding of the source -/

/-- Embedding of Python `str.split(sep)` on character lists:
`pySplit sep l` never returns `[]`; consecutive separators yield empty parts. -/
def pySplit (sep : Char) : List Char → List (List Char)
  | [] => [[]]
  | c :: rest =>
    if c = sep then [] :: pySplit sep rest
    else
      match pySplit sep rest with
      | [] => [[c]]
      | h :: t => (c :: h) :: t

/-- The last component of a split, i.e. Python `l[-1]` on a non-empty list. -/
def lastPart (ps : List (List Char)) : List Char := ps.getLastD []

/-- Decimal value of a digit run, as Python accumulates it: d = d * 10 + int(ch). -/
def digitsValNat (l : List Char) : Nat := l.foldl (fun a c => a * 10 + (c.toNat - 48)) 0

/-- Embedding of Python `int()` restricted to an optional sign followed by digits. -/
def pyInt? (l : List Char) : Option Int :=
  match l with
  | '-' :: rest =>
    if rest ≠ [] ∧ rest.all Char.isDigit then some (-(digitsValNat rest : Int)) else none
  | '+' :: rest =>
    if rest ≠ [] ∧ rest.all Char.isDigit then some ((digitsValNat rest : Int)) else none
  | _ =>
    if l ≠ [] ∧ l.all Char.isDigit then some ((digitsValNat l : Int)) else none

/-- Embedding of `XbpsVersion` (xbps_utils.py line 22). -/
structure XbpsVersion where
  comps : List Int
  revision : Int
deriving DecidableEq, Repr

/-- One step per recursive call of the tokenizer of `parse_components`
(xbps_utils.py lines 29-75): an integer run is one component, a textual
modifier (alpha, beta, pre, rc, pl, ".", checked in that order) is one
fixed component, a letter is the two components (0, idx + 1), and any
other character is skipped.  The fuel argument only makes the recursion
structural; `parse_components` supplies fuel equal to the list length,
which is sufficient because every token consumes at least one character. -/
def parse_components_go : Nat → List Char → List Int
  | 0, _ => []
  | _ + 1, [] => []
  | fuel + 1, c :: rest =>
    if c.isDigit then
      (digitsValNat ((c :: rest).takeWhile Char.isDigit) : Int) ::
        parse_components_go fuel ((c :: rest).dropWhile Char.isDigit)
    else if ("alpha".toList).isPrefixOf (c :: rest) then
      -3 :: parse_components_go fuel ((c :: rest).drop 5)
    else if ("beta".toList).isPrefixOf (c :: rest) then
      -2 :: parse_components_go fuel ((c :: rest).drop 4)
    else if ("pre".toList).isPrefixOf (c :: rest) then
      -1 :: parse_components_go fuel ((c :: rest).drop 3)
    else if ("rc".toList).isPrefixOf (c :: rest) then
      -1 :: parse_components_go fuel ((c :: rest).drop 2)
    else if ("pl".toList).isPrefixOf (c :: rest) then
      0 :: parse_components_go fuel ((c :: rest).drop 2)
    else if c = '.' then
      0 :: parse_components_go fuel rest
    else if 'a' ≤ c.toLower ∧ c.toLower ≤ 'z' then
      0 :: ((c.toLower.toNat - 'a'.toNat + 1 : Nat) : Int) :: parse_components_go fuel rest
    else
      parse_components_go fuel rest

/-- Embedding of `parse_components` (xbps_utils.py lines 29-75). -/
def parse_components (v : List Char) : List Int := parse_components_go v.length v

/-- Embedding of `parse_version` (xbps_utils.py lines 78-94): optionally strip
everything up to the last `-`, split off a single `_<n>` revision suffix
(defaulting the revision to 1), and tokenize the rest. -/
def parse_version (stripPkgname : Bool) (v : List Char) : Except String XbpsVersion :=
  let w := if stripPkgname then lastPart (pySplit '-' v) else v
  match pySplit '_' w with
  | [comps] => .ok ⟨parse_components comps, 1⟩
  | [comps, rev] =>
    match pyInt? rev with
    | some r => .ok ⟨parse_components comps, r⟩
    | none => .error ("invalid literal for int")
  | _ => .error ("Expected at most one revision in xbps version")

/-- The component loop of `compare_version` (xbps_utils.py lines 97-100):
`zip_longest` with fill value 0, returning the first non-zero difference. -/
def compare_comps : List Int → List Int → Int
  | [], [] => 0
  | c1 :: r1, c2 :: r2 => if c1 ≠ c2 then c1 - c2 else compare_comps r1 r2
  | c1 :: r1, [] => if c1 ≠ 0 then c1 else compare_comps r1 []
  | [], c2 :: r2 => if (0 : Int) ≠ c2 then 0 - c2 else compare_comps [] r2

/-- Embedding of `compare_version` (xbps_utils.py lines 97-103). -/
def compare_version (v1 v2 : XbpsVersion) : Int :=
  let c := compare_comps v1.comps v2.comps
  if c ≠ 0 then c else v1.revision - v2.revision

/-- A character matched by the regex class `[\w:-]` of `replace_at_vars`
(word characters restricted to ASCII, plus `:` and `-`). -/
def isVarChar (c : Char) : Bool :=
  c.isAlphanum || c = '_' || c = ':' || c = '-'

/-- One scanning step of `re.sub` with the pattern `@([\w:-]+)@`
(base.py line 129).  At each position: if the current character is `@`,
the maximal run of `[\w:-]` characters follows it and the next character
is again `@`, the whole `@name@` group is replaced by `resolve name`
(raising when the resolver returns `None`, base.py lines 122-127);
otherwise the scan advances one character.  Because `@` is not a
`[\w:-]` character, this greedy scan is exactly the regex semantics.
The fuel argument (instantiated with the string length) only makes the
recursion structural. -/
def replace_at_vars_go (resolve : List Char → Option (List Char)) :
    Nat → List Char → Except String (List Char)
  | _, [] => .ok []
  | 0, _ :: _ => .error ("out of fuel")
  | fuel + 1, c :: rest =>
    if c = '@' then
      if rest.takeWhile isVarChar ≠ [] ∧
          (rest.dropWhile isVarChar).head? = some '@' then
        match resolve (rest.takeWhile isVarChar) with
        | none =>
          .error (String.mk ("Unexpected substitution ".toList ++ rest.takeWhile isVarChar))
        | some r =>
          match replace_at_vars_go resolve fuel (rest.dropWhile isVarChar).tail with
          | .ok out => .ok (r ++ out)
          | .error e => .error e
      else
        match replace_at_vars_go resolve fuel rest with
        | .ok out => .ok (c :: out)
        | .error e => .error e
    else
      match replace_at_vars_go resolve fuel rest with
      | .ok out => .ok (c :: out)
      | .error e => .error e

/-- Embedding of `replace_at_vars` (base.py lines 121-129). -/
def replace_at_vars (resolve : List Char → Option (List Char)) (s : List Char) :
    Except String (List Char) :=
  replace_at_vars_go resolve s.length s

/-- The first `@name@` group matched by the scan of `replace_at_vars`,
or `none` when the string contains no substitution sequence. -/
def first_at_var_go : Nat → List Char → Option (List Char)
  | _, [] => none
  | 0, _ :: _ => none
  | fuel + 1, c :: rest =>
    if c = '@' then
      if rest.takeWhile isVarChar ≠ [] ∧
          (rest.dropWhile isVarChar).head? = some '@' then
        some (rest.takeWhile isVarChar)
      else first_at_var_go fuel rest
    else first_at_var_go fuel rest

/-- Wrapper of `first_at_var_go` at the exact fuel. -/
def first_at_var (s : List Char) : Option (List Char) :=
  first_at_var_go s.length s

/-- All `@name@` groups matched by the scan of `replace_at_vars`, in
scan order: the same traversal as `replace_at_vars_go`, collecting the
group names instead of substituting. -/
def at_var_list_go : Nat → List Char → List (List Char)
  | _, [] => []
  | 0, _ :: _ => []
  | fuel + 1, c :: rest =>
    if c = '@' then
      if rest.takeWhile isVarChar ≠ [] ∧
          (rest.dropWhile isVarChar).head? = some '@' then
        rest.takeWhile isVarChar :: at_var_list_go fuel (rest.dropWhile isVarChar).tail
      else at_var_list_go fuel rest
    else at_var_list_go fuel rest

/-- Wrapper of `at_var_list_go` at the exact fuel. -/
def at_var_list (s : List Char) : List (List Char) :=
  at_var_list_go s.length s

/-- Embedding of `Config.check_labels` (base.py lines 711-723): when the site
file has a `match` list, the subject is rejected unless *some* label of the
match list is in the subject's label set (`any`); then the subject is rejected
if *some* banned label is in the label set. -/
def check_labels (labelMatch : Option (List String)) (labelBan : List String)
    (s : List String) : Bool :=
  match labelMatch with
  | some matchList =>
    if ¬ (matchList.any (fun x => decide (x ∈ s)) = true) then false
    else if labelBan.any (fun x => decide (x ∈ s)) then false
    else true
  | none =>
    if labelBan.any (fun x => decide (x ∈ s)) then false
    else true

/-- The spec's reading of `check_labels`, stated for comparison with the
code: `match` as a conjunction (AND) over all required labels. -/
def check_labels_conjunctive (labelMatch : Option (List String))
    (labelBan : List String) (s : List String) : Bool :=
  (match labelMatch with
   | some matchList => matchList.all (fun x => decide (x ∈ s))
   | none => true) && !(labelBan.any (fun x => decide (x ∈ s)))

/-- Embedding of `ItemState` (base.py lines 179-185). -/
structure ItemState where
  missing : Bool := false
  updatable : Bool := false
  timestamp : Option Int := none
deriving DecidableEq, Repr

/-- Embedding of `TargetPackage.check_if_pull_needed` (base.py lines
1798-1818).  The repodata accesses are abstracted into the two optional
`pkgver` entries: `localPkgver` is the local repodata entry for the package
(`_have_xbps_package`), `remotePkgver` the remote one. -/
def check_if_pull_needed (useXbps : Bool) (checkRemotes : Nat)
    (localPkgver remotePkgver : Option (List Char)) : Except String ItemState :=
  if useXbps then
    match localPkgver with
    | some lv =>
      if checkRemotes ≠ 0 then
        match remotePkgver with
        | some rv =>
          match parse_version true lv, parse_version true rv with
          | .ok version, .ok remoteVersion =>
            if compare_version version remoteVersion < 0 then
              .ok { updatable := true }
            else .ok {}
          | .error e, _ => .error e
          | _, .error e => .error e
        | none => .ok {}
      else .ok {}
    | none => .ok { missing := true }
  else .error ("Package management configuration does not support pack")

/-- Python dict assignment `d[k] = v` on an insertion-ordered association
list: replaces the value in place when the key exists, otherwise appends. -/
def dictInsert (m : List (String × Nat)) (k : String) (v : Nat) :
    List (String × Nat) :=
  if m.any (fun p => decide (p.1 = k)) then
    m.map (fun p => if p.1 = k then (k, v) else p)
  else m ++ [(k, v)]

/-- The sources loop of `Config._parse_yml` (base.py lines 463-470): each
declared source is checked against the already registered names and a
duplicate raises `GenericError("Duplicate source ...")`. -/
def register_sources (seen : List String) : List String → Except String (List String)
  | [] => .ok seen
  | n :: rest =>
    if n ∈ seen then .error ("Duplicate source " ++ n)
    else register_sources (seen ++ [n]) rest

/-- The tools loop of `Config._parse_yml` (base.py lines 472-482; the
packages loop, lines 484-494, is structurally identical).  A declaration is
a name plus the optional name of an inline `source:` block.  The inline
source is registered first and a duplicate *source* raises; the tool itself
is stored with a plain dict assignment, so a duplicate *tool* name silently
overwrites the earlier entry.  The `Nat` payload records the declaration
index, making the overwrite observable. -/
def register_tools (sources : List String) (tools : List (String × Nat)) (idx : Nat) :
    List (String × Option String) →
      Except String (List String × List (String × Nat))
  | [] => .ok (sources, tools)
  | (n, inl) :: rest =>
    match inl with
    | some srcName =>
      if srcName ∈ sources then .error ("Duplicate source " ++ srcName)
      else register_tools (sources ++ [srcName]) (dictInsert tools n idx) (idx + 1) rest
    | none => register_tools sources (dictInsert tools n idx) (idx + 1) rest

/-- The tasks loop of `Config._parse_yml` (base.py lines 496-503): plain
dict assignment, duplicates silently overwrite. -/
def register_tasks (tasks : List (String × Nat)) (idx : Nat) :
    List String → List (String × Nat)
  | [] => tasks
  | n :: rest => register_tasks (dictInsert tasks n idx) (idx + 1) rest

/-- The subject dictionaries produced by `Config._parse_yml`. -/
structure ParseResult where
  sources : List String
  tools : List (String × Nat)
  pkgs : List (String × Nat)
  tasks : List (String × Nat)
deriving DecidableEq, Repr

/-- Embedding of the subject-registration part of `Config._parse_yml`
(base.py lines 417-503) for a single manifest: sources, then tools (with
inline sources), then packages (with inline sources), then tasks, in
declaration order. -/
def parse_yml (srcDecls : List String)
    (toolDecls pkgDecls : List (String × Option String))
    (taskDecls : List String) : Except String ParseResult :=
  match register_sources [] srcDecls with
  | .error e => .error e
  | .ok s1 =>
    match register_tools s1 [] 0 toolDecls with
    | .error e => .error e
    | .ok (s2, tools) =>
      match register_tools s2 [] 0 pkgDecls with
      | .error e => .error e
      | .ok (s3, pkgs) => .ok ⟨s3, tools, pkgs, register_tasks [] 0 taskDecls⟩

/-- Stat-visible file type of a filesystem entry. -/
inductive FType
  | reg
  | dir
  | sym
deriving DecidableEq, Repr

/-- A filesystem entry: its stat-visible type and (for regular files) its
content. -/
structure FNode where
  ftype : FType
  content : String
deriving DecidableEq, Repr

/-- A directory tree as `discover_dirtree` (base.py lines 2789-2800)
exposes it: a finite map from relative paths to entries. -/
def lookupTree (t : List (String × FNode)) (p : String) : Option FNode :=
  (t.find? (fun q => decide (q.1 = p))).map Prod.snd

/-- `filecmp.cmp(f1, f2, shallow=False)` (used at base.py lines 2827-2831):
false unless both paths are regular files with equal content. -/
def filecmp_cmp (collect staging : List (String × FNode)) (p : String) : Bool :=
  match lookupTree collect p, lookupTree staging p with
  | some a, some b =>
    decide (a.ftype = FType.reg) && decide (b.ftype = FType.reg) &&
      decide (a.content = b.content)
  | _, _ => false

/-- The verification part of the `reproduce` branch of `build_pkg`
(base.py lines 2787-2839): compare the path sets, then loop over the
reproduced paths comparing file types and, for regular files, contents.
Mirroring the source faithfully, BOTH stat calls of the file-type
comparison read the collect tree (base.py lines 2818-2819 both join
`pkg.collect_dir`), so `existStat` below is also looked up in `collect`. -/
def reproduce_diff (collect staging : List (String × FNode)) : Except String Unit :=
  let reproPaths := collect.map Prod.fst
  let existPaths := staging.map Prod.fst
  let reproOnly := reproPaths.filter (fun p => decide (p ∉ existPaths))
  let existOnly := existPaths.filter (fun p => decide (p ∉ reproPaths))
  if reproOnly ≠ [] then .error ("Paths only exist in reproduced build")
  else if existOnly ≠ [] then .error ("Paths only exist in existing build")
  else
    let anyIssues := reproPaths.any (fun p =>
      match lookupTree collect p, lookupTree collect p with
      | some reproStat, some existStat =>
        if reproStat.ftype ≠ existStat.ftype then true
        else if reproStat.ftype = FType.reg then ! filecmp_cmp collect staging p
        else false
      | _, _ => false)
    if anyIssues then .error ("Could not reproduce all files") else .ok ()

/-- The final phase of `build_pkg` (base.py lines 2784-2839), after the
build steps have produced the collect tree: without `reproduce` the
staging tree is removed and collect is renamed onto it; with `reproduce`
nothing is renamed and the trees are compared.  The result is the pair
(collect tree, staging tree) after the handler. -/
def build_pkg (reproduce : Bool) (collect staging : List (String × FNode)) :
    Except String (List (String × FNode) × List (String × FNode)) :=
  if ¬ reproduce then
    .ok ([], collect)
  else
    match reproduce_diff collect staging with
    | .ok _ => .ok (collect, staging)
    | .error e => .error e

/-- The per-item result of `Plan._materialize_item` (base.py lines
3398-3572): the four edge sets of a `PlanItem`, as functions of the plan
key.  The function abstracts over the configuration: for a given config
and flag set, `_materialize_item` deterministically produces these edge
sets, so every theorem below quantifies over all such edge maps. -/
structure PlanGraph (K : Type) where
  build : K → List K
  require : K → List K
  orderBefore : K → List K
  orderAfter : K → List K

section PlanEngine

variable {K : Type} [DecidableEq K]

/-- `Plan._do_materialization_visit` (base.py lines 3574-3580): push every
not-yet-visited edge key onto the stack and mark it visited. -/
def mat_visit : List K → List K → List K → List K × List K
  | [], vis, stk => (vis, stk)
  | e :: es, vis, stk =>
    if e ∈ vis then mat_visit es vis stk
    else mat_visit es (e :: vis) (e :: stk)

/-- The worklist loop of `Plan._do_materialization` (base.py lines
3591-3606): pop a key, materialize its item (store the key), and visit its
build edges then its require edges.  The fuel argument only bounds the
loop; it is sufficient whenever it exceeds the number of reachable keys. -/
def mat_loop (g : PlanGraph K) : Nat → List K → List K → List K → Except String (List K)
  | _, [], _, items => .ok items
  | 0, _ :: _, _, _ => .error ("out of fuel")
  | fuel + 1, k :: stk, vis, items =>
    match mat_visit (g.build k) vis stk with
    | (vis1, stk1) =>
      match mat_visit (g.require k) vis1 stk1 with
      | (vis2, stk2) => mat_loop g fuel stk2 vis2 (items ++ [k])

/-- Embedding of `Plan._do_materialization` (base.py lines 3591-3606): the
initial visited set and stack are the deduplicated wanted keys; the result
is the list of materialized keys (the keys of `Plan._items`) in insertion
order. -/
def do_materialization (g : PlanGraph K) (wanted : List K) (fuel : Nat) :
    Except String (List K) :=
  mat_loop g fuel wanted.dedup wanted.dedup []

/-- Appending plan items to one key's `edge_list`. -/
def pushEdges (m : K → List K) (k : K) (es : List K) : K → List K :=
  fun k2 => if k2 = k then m k2 ++ es else m k2

/-- The `order_after_edges` loop of `Plan._do_ordering` (base.py lines
3615-3619): each order-after edge appends the current item to the TARGET
item's edge list; a target that was not materialized raises (the source
indexes `self._items[edge]` without a membership check). -/
def add_order_after (items : List K) (i : K) :
    List K → (K → List K) → Except String (K → List K)
  | [], m => .ok m
  | e :: rest, m =>
    if e ∈ items then add_order_after items i rest (pushEdges m e [i])
    else .error ("KeyError")

/-- The edge-resolution loop of `Plan._do_ordering` (base.py lines
3608-3619): for each item, `_do_order_before` appends the materialized
targets of its build, require, and order-before edge sets (silently
skipping targets outside `self._items`, base.py line 3585), then the
order-after edges are resolved in reverse. -/
def resolve_edges_go (g : PlanGraph K) (items : List K) :
    List K → (K → List K) → Except String (K → List K)
  | [], m => .ok m
  | i :: rest, m =>
    match add_order_after items i (g.orderAfter i)
        (pushEdges
          (pushEdges
            (pushEdges m i ((g.build i).filter (fun e => decide (e ∈ items))))
            i ((g.require i).filter (fun e => decide (e ∈ items))))
          i ((g.orderBefore i).filter (fun e => decide (e ∈ items)))) with
    | .ok m2 => resolve_edges_go g items rest m2
    | .error e => .error e

/-- Edge resolution over all materialized items, starting from empty edge
lists. -/
def resolve_edges (g : PlanGraph K) (items : List K) : Except String (K → List K) :=
  resolve_edges_go g items items (fun _ => [])

/-- The three-color DFS topological sort of `Plan._do_ordering` (base.py
lines 3634-3665), with its explicit stack: a stack entry is an item
together with its not-yet-resolved edge suffix (the source keeps a
`resolved_n` counter into `edge_list`).  An item is EXPANDING while on the
stack and ORDERED once appended to the output; visiting an EXPANDING item
is the fatal cycle error.  When the stack drains, the next root is
visited.  The fuel argument only bounds the loop. -/
def topo_run (edges : K → List K) :
    Nat → List K → List (K × List K) → List K → Except String (List K)
  | 0, _, _, _ => .error ("out of fuel")
  | _ + 1, [], [], order => .ok order
  | fuel + 1, r :: rs, [], order =>
    if r ∈ order then topo_run edges fuel rs [] order
    else topo_run edges fuel rs [(r, edges r)] order
  | fuel + 1, roots, (k, []) :: rest, order =>
    topo_run edges fuel roots rest (order ++ [k])
  | fuel + 1, roots, (k, e :: es) :: rest, order =>
    if e ∈ order then topo_run edges fuel roots ((k, es) :: rest) order
    else if e = k ∨ e ∈ rest.map Prod.fst then
      .error ("Package has circular dependencies")
    else topo_run edges fuel roots ((e, edges e) :: (k, es) :: rest) order

/-- Embedding of `Plan._do_ordering` (base.py lines 3608-3665): resolve the
edge lists, sort the root list and every edge list with the deterministic
sort (optionally followed by the PRNG shuffle) — abstracted as a
permutation-producing `sortFn` — and topologically sort. -/
def do_ordering (g : PlanGraph K) (items : List K) (sortFn : List K → List K)
    (fuel : Nat) : Except String (List K) :=
  match resolve_edges g items with
  | .error e => .error e
  | .ok edgeFn => topo_run (fun k => sortFn (edgeFn k)) fuel (sortFn items) [] []

/-- The activation state of `Plan._do_activation`: the set of items with
`active = True` and the `_visited_for_activation` set. -/
structure ActState (K : Type) where
  activeL : List K
  visitedA : List K

/-- The inner `visit` of `Plan._do_activation` (base.py lines 3669-3677):
mark each edge visited and push it when its probe reports missing. -/
def act_visit (missing : K → Bool) : List K → List K → List K → List K × List K
  | [], vis, stk => (vis, stk)
  | e :: es, vis, stk =>
    if e ∈ vis then act_visit missing es vis stk
    else if missing e then act_visit missing es (e :: vis) (e :: stk)
    else act_visit missing es (e :: vis) stk

/-- The worklist of `activate` (base.py lines 3679-3693): pop a key, skip it
when already active, otherwise activate it and visit its build and require
edges. -/
def act_loop (missing : K → Bool) (g : PlanGraph K) :
    Nat → List K → ActState K → Except String (ActState K)
  | _, [], st => .ok st
  | 0, _ :: _, _ => .error ("out of fuel")
  | fuel + 1, k :: stk, st =>
    if k ∈ st.activeL then act_loop missing g fuel stk st
    else
      match act_visit missing (g.build k) (st.visitedA) stk with
      | (vis1, stk1) =>
        match act_visit missing (g.require k) vis1 stk1 with
        | (vis2, stk2) =>
          act_loop missing g fuel stk2 ⟨k :: st.activeL, vis2⟩

/-- `activate(root_key)` (base.py lines 3679-3683): mark the root visited
and run the worklist on it. -/
def activate (missing : K → Bool) (g : PlanGraph K) (fuel : Nat)
    (st : ActState K) (root : K) : Except String (ActState K) :=
  act_loop missing g fuel [root] ⟨st.activeL, root :: st.visitedA⟩

/-- The wanted loop of `Plan._do_activation` (base.py lines 3695-3701):
each wanted key is marked `build_span`; it is activated unless `check` is
set and its probe does not report missing. -/
def activation_wanted (check : Bool) (missing : K → Bool) (g : PlanGraph K)
    (fuel : Nat) :
    List K → ActState K × List K → Except String (ActState K × List K)
  | [], acc => .ok acc
  | w :: rest, (st, spans) =>
    if !check || missing w then
      match activate missing g fuel st w with
      | .ok st2 => activation_wanted check missing g fuel rest (st2, w :: spans)
      | .error e => .error e
    else activation_wanted check missing g fuel rest (st, w :: spans)

/-- The build-span propagation of `Plan._do_activation` (base.py lines
3703-3709): walk the emitted order in reverse and mark the build-edge
targets of every spanned item. -/
def propagate_span (g : PlanGraph K) (order : List K) (spans : List K) : List K :=
  order.reverse.foldl
    (fun sp item =>
      if item ∈ sp then (g.build item).foldl (fun sp2 dep => dep :: sp2) sp
      else sp)
    spans

/-- `is_outdated` (base.py lines 3711-3716). -/
def is_outdated (timestamp : K → Option Int) (item dep : K) : Bool :=
  match timestamp item, timestamp dep with
  | some ts, some depTs => decide (depTs > ts)
  | _, _ => false

/-- The dependency loop of the update handling (base.py lines 3729-3745):
activate the item when a dependency is already active or outdated relative
to it.  (The `item.outdated` display flag is not modelled.) -/
def act_on_deps (missing : K → Bool) (g : PlanGraph K) (fuel : Nat)
    (timestamp : K → Option Int) (item : K) :
    List K → ActState K → Except String (ActState K)
  | [], st => .ok st
  | dep :: rest, st =>
    if dep ∈ st.activeL then
      match activate missing g fuel st item with
      | .ok st2 => act_on_deps missing g fuel timestamp item rest st2
      | .error e => .error e
    else if is_outdated timestamp item dep then
      match activate missing g fuel st item with
      | .ok st2 => act_on_deps missing g fuel timestamp item rest st2
      | .error e => .error e
    else act_on_deps missing g fuel timestamp item rest st

/-- The `--update` / `--recursive` loop of `Plan._do_activation` (base.py
lines 3718-3745): over the emitted order, skip items outside the build
span under `restrict_updates`, activate missing or updatable items, then
activate on active or outdated build edges, and (only with `recursive`)
on active or outdated require edges. -/
def activation_update (recursive restrictUpdates : Bool) (missing updatable : K → Bool)
    (timestamp : K → Option Int) (g : PlanGraph K) (fuel : Nat) (spans : List K) :
    List K → ActState K → Except String (ActState K)
  | [], st => .ok st
  | item :: rest, st =>
    if restrictUpdates ∧ item ∉ spans then
      activation_update recursive restrictUpdates missing updatable timestamp g fuel spans rest st
    else
      match (if missing item || updatable item then activate missing g fuel st item
             else .ok st) with
      | .error e => .error e
      | .ok st1 =>
        match act_on_deps missing g fuel timestamp item (g.build item) st1 with
        | .error e => .error e
        | .ok st2 =>
          match (if recursive then
                   act_on_deps missing g fuel timestamp item (g.require item) st2
                 else .ok st2) with
          | .error e => .error e
          | .ok st3 =>
            activation_update recursive restrictUpdates missing updatable timestamp g fuel spans rest st3

/-- Embedding of `Plan._do_activation` (base.py lines 3667-3745). -/
def do_activation (check update recursive restrictUpdates : Bool)
    (missing updatable : K → Bool) (timestamp : K → Option Int)
    (g : PlanGraph K) (order wanted : List K) (fuel : Nat) :
    Except String (ActState K × List K) :=
  match activation_wanted check missing g fuel wanted (⟨[], []⟩, []) with
  | .error e => .error e
  | .ok (st1, spans1) =>
    let spans2 := propagate_span g order spans1
    if update || recursive then
      match activation_update recursive restrictUpdates missing updatable timestamp
          g fuel spans2 order st1 with
      | .error e => .error e
      | .ok st2 => .ok (st2, spans2)
    else .ok (st1, spans2)

/-- Embedding of `Plan.compute_plan` (base.py lines 3792-3809):
materialization, then ordering, then activation. -/
def compute_plan (g : PlanGraph K) (sortFn : List K → List K)
    (check update recursive restrictUpdates : Bool)
    (missing updatable : K → Bool) (timestamp : K → Option Int)
    (wanted : List K) (fuel1 fuel2 fuel3 : Nat) :
    Except String (List K × List K × ActState K × List K) :=
  match do_materialization g wanted fuel1 with
  | .error e => .error e
  | .ok items =>
    match do_ordering g items sortFn fuel2 with
    | .error e => .error e
    | .ok ord =>
      match do_activation check update recursive restrictUpdates missing updatable
          timestamp g ord wanted fuel3 with
      | .error e => .error e
      | .ok (st, spans) => .ok (items, ord, st, spans)

/-- Embedding of `ExecutionStatus` (base.py lines 3186-3191). -/
inductive ExecutionStatus
  | NULL
  | SUCCESS
  | STEP_FAILED
  | PREREQS_FAILED
  | NOT_WANTED
deriving DecidableEq, Repr

/-- Assignment of `item.exec_status`. -/
def setStatus (st : K → ExecutionStatus) (k : K) (v : ExecutionStatus) :
    K → ExecutionStatus :=
  fun k2 => if k2 = k then v else st k2

/-- The execution loop of `Plan.run_plan` (base.py lines 3898-4032) over
the scheduled (active) items in plan order.  `outcome item` abstracts the
action handler dispatch (base.py lines 3968-4020): per the driver's
contract every handler either succeeds or raises one of the caught
failures (`CalledProcessError`, `ProgramFailureError`,
`ExecutionFailureError`); `WANT_TOOL`/`WANT_PKG` always raise.  For each
item: items with an active non-success edge are skipped with
`PREREQS_FAILED` under `keep_going`; with `only_wanted`, non-wanted items
raise (or get `NOT_WANTED` under `keep_going`); otherwise the handler runs
and the status becomes `SUCCESS` or `STEP_FAILED`, the latter aborting the
plan unless `keep_going` is set. -/
def run_plan_loop (keepGoing onlyWanted : Bool) (wanted : List K)
    (edgeList : K → List K) (outcome : K → Bool) (active : K → Bool) :
    List K → (K → ExecutionStatus) → Bool →
      Except String ((K → ExecutionStatus) × Bool)
  | [], st, anyFailed => .ok (st, anyFailed)
  | item :: rest, st, anyFailed =>
    if keepGoing &&
        (edgeList item).any (fun e => active e && decide (st e ≠ ExecutionStatus.SUCCESS)) then
      run_plan_loop keepGoing onlyWanted wanted edgeList outcome active rest
        (setStatus st item ExecutionStatus.PREREQS_FAILED) true
    else if onlyWanted && decide (item ∉ wanted) then
      if !keepGoing then .error ("ExecutionFailure")
      else
        run_plan_loop keepGoing onlyWanted wanted edgeList outcome active rest
          (setStatus st item ExecutionStatus.NOT_WANTED) true
    else if outcome item then
      run_plan_loop keepGoing onlyWanted wanted edgeList outcome active rest
        (setStatus st item ExecutionStatus.SUCCESS) anyFailed
    else if !keepGoing then .error ("ExecutionFailure")
    else
      run_plan_loop keepGoing onlyWanted wanted edgeList outcome active rest
        (setStatus st item ExecutionStatus.STEP_FAILED) true

/-- Embedding of the execution part of `Plan.run_plan` (base.py lines
3814-4062): the scheduled list is the active subset of the emitted order
(line 3818); all statuses start NULL; the returned flag is
`any_failed_items`, which makes the driver raise `PlanFailureError` after
the loop (statuses are already final at that point). -/
def run_plan (keepGoing onlyWanted : Bool) (wanted : List K)
    (edgeList : K → List K) (outcome : K → Bool) (active : K → Bool)
    (order : List K) : Except String ((K → ExecutionStatus) × Bool) :=
  run_plan_loop keepGoing onlyWanted wanted edgeList outcome active
    (order.filter (fun k => active k)) (fun _ => ExecutionStatus.NULL) false

/-- The order invariant established by the DFS: each emitted item's edges
lie strictly earlier in the emitted order. -/
inductive TopoGood (edges : K → List K) : List K → Prop
  | nil : TopoGood edges []
  | snoc (l : List K) (k : K) :
      TopoGood edges l → (∀ e ∈ edges k, e ∈ l) → TopoGood edges (l ++ [k])

/-- Invariant of the DFS stack: each stack entry's already-consumed edges
are either emitted or on the stack strictly above the entry. -/
def chain_inv (edges : K → List K) (ord : List K) :
    List K → List (K × List K) → Prop
  | _, [] => True
  | above, (k, es) :: rest =>
    (∃ pre, edges k = pre ++ es ∧ ∀ e ∈ pre, e ∈ ord ∨ e ∈ above) ∧
      chain_inv edges ord (k :: above) rest

end PlanEngine

/-- A small concrete plan graph over `Nat` keys used by the witnesses:
item 0 has the single build edge 0 -> 1. -/
def gExample : PlanGraph Nat :=
  ⟨fun k => if k = 0 then [1] else [], fun _ => [], fun _ => [], fun _ => []⟩

/-! ## Theorems -/

theorem pySplit_ne_nil (sep : Char) (l : List Char) : pySplit sep l ≠ [] := by
  cases l with
  | nil => simp [pySplit]
  | cons c rest =>
    simp only [pySplit]
    split
    · simp
    · split <;> simp

theorem pySplit_cons_sep (sep : Char) (rest : List Char) :
    pySplit sep (sep :: rest) = [] :: pySplit sep rest := by
  simp [pySplit]

theorem pySplit_cons_ne (sep c : Char) (rest h : List Char) (t : List (List Char))
    (hc : c ≠ sep) (hsp : pySplit sep rest = h :: t) :
    pySplit sep (c :: rest) = (c :: h) :: t := by
  simp [pySplit, hc, hsp]

/-- Splitting distributes over a separator occurrence:
`pySplit sep (l1 ++ sep :: l2) = pySplit sep l1 ++ pySplit sep l2`. -/
theorem pySplit_append_sep (sep : Char) (l1 l2 : List Char) :
    pySplit sep (l1 ++ sep :: l2) = pySplit sep l1 ++ pySplit sep l2 := by
  induction l1 with
  | nil => simp [pySplit]
  | cons c rest ih =>
    rcases h : pySplit sep rest with _ | ⟨h1, t1⟩
    · exact absurd h (pySplit_ne_nil sep rest)
    · by_cases hc : c = sep
      · subst hc
        simp [pySplit, ih, h]
      · simp [pySplit, hc, ih, h]

/-- A list without the separator splits into a single part. -/
theorem pySplit_no_sep (sep : Char) (l : List Char) (h : sep ∉ l) :
    pySplit sep l = [l] := by
  induction l with
  | nil => simp [pySplit]
  | cons c rest ih =>
    have hc : ¬ c = sep := fun hh => h (hh ▸ List.mem_cons_self c rest)
    have hrest : sep ∉ rest := fun hh => h (List.mem_cons_of_mem c hh)
    simp only [pySplit, if_neg hc, ih hrest]

theorem getLastD_cons_of_ne_nil {α : Type} (a : α) (d : α) (t : List α) (h : t ≠ []) :
    (a :: t).getLastD d = t.getLastD d := by
  cases t with
  | nil => exact absurd rfl h
  | cons b t' => rfl

theorem getLastD_append_of_ne_nil {α : Type} (d : α) (xs ys : List α) (h : ys ≠ []) :
    (xs ++ ys).getLastD d = ys.getLastD d := by
  induction xs with
  | nil => rfl
  | cons a xs ih =>
    have hne : xs ++ ys ≠ [] := by
      intro hh
      rcases List.append_eq_nil.mp hh with ⟨_, h2⟩
      exact h h2
    rw [List.cons_append, getLastD_cons_of_ne_nil a d (xs ++ ys) hne, ih]

theorem getLastD_concat {α : Type} (d : α) (xs : List α) (y : α) :
    (xs ++ [y]).getLastD d = y := by
  rw [getLastD_append_of_ne_nil d xs [y] (by simp)]
  rfl

/-- Members of the parts of a split are members of the original list. -/
theorem mem_of_mem_pySplit (sep : Char) (l : List Char) :
    ∀ p ∈ pySplit sep l, ∀ c ∈ p, c ∈ l := by
  induction l with
  | nil =>
    intro p hp c hc
    simp [pySplit] at hp
    subst hp
    simp at hc
  | cons a rest ih =>
    intro p hp c hc
    rcases hsp : pySplit sep rest with _ | ⟨h1, t1⟩
    · exact absurd hsp (pySplit_ne_nil sep rest)
    · by_cases ha : a = sep
      · subst ha
        rw [pySplit_cons_sep a rest, List.mem_cons] at hp
        rcases hp with hp | hp
        · subst hp; simp at hc
        · exact List.mem_cons_of_mem a (ih p hp c hc)
      · rw [pySplit_cons_ne sep a rest h1 t1 ha hsp, List.mem_cons] at hp
        rcases hp with hp | hp
        · subst hp
          rcases List.mem_cons.mp hc with hc | hc
          · rw [hc]; exact List.mem_cons_self a rest
          · exact List.mem_cons_of_mem a
              (ih h1 (hsp ▸ List.mem_cons_self h1 t1) c hc)
        · exact List.mem_cons_of_mem a (ih p (hsp ▸ List.mem_cons_of_mem h1 hp) c hc)

theorem lastPart_mem (ps : List (List Char)) (h : ps ≠ []) : lastPart ps ∈ ps := by
  induction ps with
  | nil => exact absurd rfl h
  | cons a t ih =>
    cases t with
    | nil => simp [lastPart]
    | cons b t' =>
      rw [lastPart, getLastD_cons_of_ne_nil a [] (b :: t') (by simp)]
      exact List.mem_cons_of_mem a (ih (by simp))

/-- Appending separator-free text extends the last part of a split. -/
theorem pySplit_append_no_sep (sep : Char) (l w : List Char) (hw : sep ∉ w) :
    pySplit sep (l ++ w) =
      (pySplit sep l).dropLast ++ [lastPart (pySplit sep l) ++ w] := by
  induction l with
  | nil => simp [pySplit_no_sep sep w hw, pySplit, lastPart]
  | cons c rest ih =>
    rcases hsp : pySplit sep rest with _ | ⟨h1, t1⟩
    · exact absurd hsp (pySplit_ne_nil sep rest)
    · rcases hsw : pySplit sep (rest ++ w) with _ | ⟨g1, s1⟩
      · exact absurd hsw (pySplit_ne_nil sep (rest ++ w))
      · by_cases hc : c = sep
        · subst hc
          rw [List.cons_append, pySplit_cons_sep c (rest ++ w), ih,
            pySplit_cons_sep c rest, hsp]
          simp only [lastPart]
          rw [List.dropLast_cons₂, getLastD_cons_of_ne_nil [] [] (h1 :: t1) (by simp),
            List.cons_append]
        · have hun : pySplit sep (c :: (rest ++ w)) = (c :: g1) :: s1 :=
            pySplit_cons_ne sep c (rest ++ w) g1 s1 hc hsw
          have hun2 : pySplit sep (c :: rest) = (c :: h1) :: t1 :=
            pySplit_cons_ne sep c rest h1 t1 hc hsp
          rw [List.cons_append, hun, hun2]
          rw [hsp, hsw] at ih
          cases t1 with
          | nil =>
            have hih : g1 :: s1 = [h1 ++ w] := by
              rw [ih]; rfl
            injection hih with hih1 hih2
            subst hih1; subst hih2
            rfl
          | cons b t' =>
            rw [List.dropLast_cons₂] at ih
            simp only [List.cons_append] at ih
            rcases s1 with _ | ⟨x, xs⟩
            · exact absurd (congrArg List.length ih) (by simp)
            · injection ih with hg1 hg2
              have hl1 : lastPart (h1 :: b :: t') = lastPart (b :: t') :=
                getLastD_cons_of_ne_nil h1 [] (b :: t') (by simp)
              have hl2 : lastPart ((c :: h1) :: b :: t') = lastPart (b :: t') :=
                getLastD_cons_of_ne_nil (c :: h1) [] (b :: t') (by simp)
              rw [List.dropLast_cons₂, List.cons_append, hl2, hg1]
              exact congrArg (List.cons (c :: h1)) (by rw [hg2, hl1])

theorem compare_comps_self (l : List Int) : compare_comps l l = 0 := by
  induction l with
  | nil => simp [compare_comps]
  | cons c r ih => simp [compare_comps, ih]

theorem compare_version_self (v : XbpsVersion) : compare_version v v = 0 := by
  simp [compare_version, compare_comps_self]

theorem compare_comps_append_zeros (l : List Int) :
    compare_comps l (l ++ [0, 0]) = 0 := by
  induction l with
  | nil => simp [compare_comps]
  | cons c r ih => simp [compare_comps, ih]

theorem parse_components_go_nil (n : Nat) : parse_components_go n [] = [] := by
  cases n <;> simp [parse_components_go]

/-- A dot-free pattern is a prefix of `v ++ '.' :: w'` iff it is a prefix of `v`. -/
theorem isPrefixOf_append_dot (m : List Char) :
    ∀ (v w' : List Char), '.' ∉ m →
      m.isPrefixOf (v ++ '.' :: w') = m.isPrefixOf v := by
  induction m with
  | nil => intro v w' _; simp [List.isPrefixOf]
  | cons a m' ih =>
    intro v w' hm
    cases v with
    | nil =>
      have ha : ¬ (a = '.') := fun h => hm (h ▸ List.mem_cons_self a m')
      have hbeq : (a == '.') = false := beq_eq_false_iff_ne.mpr ha
      simp [List.isPrefixOf, hbeq]
    | cons b v' =>
      have hm' : '.' ∉ m' := fun h => hm (List.mem_cons_of_mem a h)
      simp only [List.cons_append, List.isPrefixOf, List.append_eq]
      rw [ih v' w' hm']

theorem isPrefixOf_cons_append_dot (m : List Char) (c : Char) (rest w' : List Char)
    (hm : '.' ∉ m) :
    m.isPrefixOf (c :: (rest ++ '.' :: w')) = m.isPrefixOf (c :: rest) := by
  have h := isPrefixOf_append_dot m (c :: rest) w' hm
  simpa using h

theorem takeWhile_append_not (p : Char → Bool) (x : Char) (w : List Char)
    (hx : p x = false) :
    ∀ l : List Char, (l ++ x :: w).takeWhile p = l.takeWhile p := by
  intro l
  induction l with
  | nil => simp [List.takeWhile_cons, hx]
  | cons a l' ih =>
    by_cases pa : p a = true
    · simp [List.takeWhile_cons, pa, ih]
    · simp [List.takeWhile_cons, pa]

theorem dropWhile_append_not (p : Char → Bool) (x : Char) (w : List Char)
    (hx : p x = false) :
    ∀ l : List Char, (l ++ x :: w).dropWhile p = l.dropWhile p ++ x :: w := by
  intro l
  induction l with
  | nil => simp [List.dropWhile_cons, hx]
  | cons a l' ih =>
    by_cases pa : p a = true
    · simp [List.dropWhile_cons, pa, ih]
    · simp [List.dropWhile_cons, pa]

theorem length_le_of_isPrefixOf (m l : List Char) (h : m.isPrefixOf l = true) :
    m.length ≤ l.length :=
  (List.isPrefixOf_iff_prefix.mp h).length_le

theorem length_dropWhile_le (p : Char → Bool) (l : List Char) :
    (l.dropWhile p).length ≤ l.length := by
  induction l with
  | nil => simp
  | cons a l' ih =>
    by_cases pa : p a = true
    · simp only [List.dropWhile_cons, pa, if_true]
      exact le_trans ih (Nat.le_succ _)
    · simp [List.dropWhile_cons, pa]

/-- Appending `".0"` appends the two components `(0, 0)`: the tokenizer never
reads across the boundary because `.` is neither a digit nor a character of a
multi-character modifier. -/
theorem parse_components_go_append_dot_zero :
    ∀ (n : Nat) (u : List Char), u.length ≤ n →
      parse_components_go (n + 2) (u ++ ['.', '0']) =
        parse_components_go n u ++ [0, 0] := by
  intro n
  induction n with
  | zero =>
    intro u hu
    have hn : u = [] := List.eq_nil_of_length_eq_zero (Nat.le_zero.mp hu)
    subst hn
    rfl
  | succ n ih =>
    intro u hu
    have e1 : n + 1 + 2 = (n + 2) + 1 := rfl
    cases u with
    | nil =>
      rw [List.nil_append, e1, parse_components_go_nil, List.nil_append]
      show 0 :: parse_components_go (n + 2) ['0'] = [0, 0]
      have e2 : n + 2 = (n + 1) + 1 := rfl
      rw [e2]
      show 0 :: 0 :: parse_components_go (n + 1) [] = [0, 0]
      rw [parse_components_go_nil]
    | cons c rest =>
      have hlen : rest.length ≤ n := by
        simpa using hu
      rw [e1]
      have hw : (c :: rest) ++ ['.', '0'] = c :: (rest ++ ['.', '0']) := rfl
      rw [hw]
      simp only [parse_components_go]
      have hdot : Char.isDigit '.' = false := rfl
      have hp1 : ("alpha".toList).isPrefixOf (c :: (rest ++ ['.', '0'])) =
          ("alpha".toList).isPrefixOf (c :: rest) :=
        isPrefixOf_cons_append_dot _ c rest ['0'] (by decide)
      have hp2 : ("beta".toList).isPrefixOf (c :: (rest ++ ['.', '0'])) =
          ("beta".toList).isPrefixOf (c :: rest) :=
        isPrefixOf_cons_append_dot _ c rest ['0'] (by decide)
      have hp3 : ("pre".toList).isPrefixOf (c :: (rest ++ ['.', '0'])) =
          ("pre".toList).isPrefixOf (c :: rest) :=
        isPrefixOf_cons_append_dot _ c rest ['0'] (by decide)
      have hp4 : ("rc".toList).isPrefixOf (c :: (rest ++ ['.', '0'])) =
          ("rc".toList).isPrefixOf (c :: rest) :=
        isPrefixOf_cons_append_dot _ c rest ['0'] (by decide)
      have hp5 : ("pl".toList).isPrefixOf (c :: (rest ++ ['.', '0'])) =
          ("pl".toList).isPrefixOf (c :: rest) :=
        isPrefixOf_cons_append_dot _ c rest ['0'] (by decide)
      have htake : (c :: (rest ++ ['.', '0'])).takeWhile Char.isDigit =
          (c :: rest).takeWhile Char.isDigit := by
        have := takeWhile_append_not Char.isDigit '.' ['0'] hdot (c :: rest)
        simpa using this
      have hdrop : (c :: (rest ++ ['.', '0'])).dropWhile Char.isDigit =
          (c :: rest).dropWhile Char.isDigit ++ ['.', '0'] := by
        have := dropWhile_append_not Char.isDigit '.' ['0'] hdot (c :: rest)
        simpa using this
      rw [hp1, hp2, hp3, hp4, hp5, htake, hdrop]
      by_cases hd : c.isDigit = true
      · rw [if_pos hd, if_pos hd]
        have hlen2 : ((c :: rest).dropWhile Char.isDigit).length ≤ n := by
          have h1 : (c :: rest).dropWhile Char.isDigit = rest.dropWhile Char.isDigit := by
            simp [List.dropWhile_cons, hd]
          rw [h1]
          exact le_trans (length_dropWhile_le _ _) hlen
        rw [ih _ hlen2]
        simp
      · rw [if_neg hd, if_neg hd]
        by_cases h1 : ("alpha".toList).isPrefixOf (c :: rest) = true
        · rw [if_pos h1, if_pos h1]
          have hl5 : 5 ≤ (c :: rest).length := length_le_of_isPrefixOf _ _ h1
          rw [show c :: (rest ++ (['.', '0'] : List Char)) = (c :: rest) ++ ['.', '0'] from rfl]
          rw [List.drop_append_of_le_length hl5]
          have hlen2 : ((c :: rest).drop 5).length ≤ n := by
            rw [List.length_drop]
            simp only [List.length_cons]
            omega
          rw [ih _ hlen2]
          simp
        · rw [if_neg h1, if_neg h1]
          by_cases h2 : ("beta".toList).isPrefixOf (c :: rest) = true
          · rw [if_pos h2, if_pos h2]
            have hl4 : 4 ≤ (c :: rest).length := length_le_of_isPrefixOf _ _ h2
            rw [show c :: (rest ++ (['.', '0'] : List Char)) = (c :: rest) ++ ['.', '0'] from rfl]
            rw [List.drop_append_of_le_length hl4]
            have hlen2 : ((c :: rest).drop 4).length ≤ n := by
              rw [List.length_drop]
              simp only [List.length_cons]
              omega
            rw [ih _ hlen2]
            simp
          · rw [if_neg h2, if_neg h2]
            by_cases h3 : ("pre".toList).isPrefixOf (c :: rest) = true
            · rw [if_pos h3, if_pos h3]
              have hl3 : 3 ≤ (c :: rest).length := length_le_of_isPrefixOf _ _ h3
              rw [show c :: (rest ++ (['.', '0'] : List Char)) = (c :: rest) ++ ['.', '0'] from rfl]
              rw [List.drop_append_of_le_length hl3]
              have hlen2 : ((c :: rest).drop 3).length ≤ n := by
                rw [List.length_drop]
                simp only [List.length_cons]
                omega
              rw [ih _ hlen2]
              simp
            · rw [if_neg h3, if_neg h3]
              by_cases h4 : ("rc".toList).isPrefixOf (c :: rest) = true
              · rw [if_pos h4, if_pos h4]
                have hl2 : 2 ≤ (c :: rest).length := length_le_of_isPrefixOf _ _ h4
                rw [show c :: (rest ++ (['.', '0'] : List Char)) = (c :: rest) ++ ['.', '0'] from rfl]
                rw [List.drop_append_of_le_length hl2]
                have hlen2 : ((c :: rest).drop 2).length ≤ n := by
                  rw [List.length_drop]
                  simp only [List.length_cons]
                  omega
                rw [ih _ hlen2]
                simp
              · rw [if_neg h4, if_neg h4]
                by_cases h5 : ("pl".toList).isPrefixOf (c :: rest) = true
                · rw [if_pos h5, if_pos h5]
                  have hl2 : 2 ≤ (c :: rest).length := length_le_of_isPrefixOf _ _ h5
                  rw [show c :: (rest ++ (['.', '0'] : List Char)) = (c :: rest) ++ ['.', '0'] from rfl]
                  rw [List.drop_append_of_le_length hl2]
                  have hlen2 : ((c :: rest).drop 2).length ≤ n := by
                    rw [List.length_drop]
                    simp only [List.length_cons]
                    omega
                  rw [ih _ hlen2]
                  simp
                · rw [if_neg h5, if_neg h5]
                  by_cases h6 : c = '.'
                  · rw [if_pos h6, if_pos h6, ih rest hlen]
                    simp
                  · rw [if_neg h6, if_neg h6]
                    by_cases h7 : 'a' ≤ c.toLower ∧ c.toLower ≤ 'z'
                    · rw [if_pos h7, if_pos h7, ih rest hlen]
                      simp
                    · rw [if_neg h7, if_neg h7]
                      exact ih rest hlen

/-- `parse_components` level statement of the `".0"` padding lemma. -/
theorem parse_components_append_dot_zero (u : List Char) :
    parse_components (u ++ ['.', '0']) = parse_components u ++ [0, 0] := by
  have h := parse_components_go_append_dot_zero u.length u (le_refl _)
  rw [parse_components, parse_components]
  have hl : (u ++ ['.', '0']).length = u.length + 2 := by simp
  rw [hl]
  exact h

/-- With `strip_pkgname`, only the text after the last `-` matters. -/
theorem parse_version_ignores_pkgname (name v : List Char) :
    parse_version true (name ++ '-' :: v) = parse_version true v := by
  have hw : lastPart (pySplit '-' (name ++ '-' :: v)) = lastPart (pySplit '-' v) := by
    rw [pySplit_append_sep '-' name v, lastPart,
      getLastD_append_of_ne_nil [] (pySplit '-' name) (pySplit '-' v)
        (pySplit_ne_nil '-' v)]
    rfl
  simp [parse_version, hw]

/-- C9.  For every version string on which `parse_version` succeeds, the parsed
version compares equal to itself under `compare_version`; and with
`strip_pkgname` the parse ignores everything up to the last `-`, so prefixing
any `pkgname-` segment does not change the parse result. -/
theorem claim_C9_version_roundtrip (v : List Char) :
    (∀ pv, parse_version true v = .ok pv → compare_version pv pv = 0) ∧
    (∀ name, parse_version true (name ++ '-' :: v) = parse_version true v) := by
  constructor
  · intro pv _
    exact compare_version_self pv
  · intro name
    exact parse_version_ignores_pkgname name v

/-- Witness for C9 on the concrete version string `pkg-1.2`. -/
theorem claim_C9_witness :
    compare_version ⟨[1, 0, 2], 1⟩ ⟨[1, 0, 2], 1⟩ = 0 ∧
    parse_version true ("pkg".toList ++ '-' :: "1.2".toList) =
      parse_version true ("1.2".toList) :=
  ⟨(claim_C9_version_roundtrip ("1.2".toList)).1 ⟨[1, 0, 2], 1⟩ rfl,
    (claim_C9_version_roundtrip ("1.2".toList)).2 ("pkg".toList)⟩

/-- C10.  `parse_version` defaults the revision to 1 when no `_<n>` suffix is
present and `compare_version` pads the shorter component list with zeros:
for every underscore-free version string `v`, `v` compares equal to `v_1`
and to `v.0`. -/
theorem claim_C10_pad_and_default (v : List Char) (h : '_' ∉ v) :
    ∃ pv pv1 pv0 : XbpsVersion,
      parse_version true v = .ok pv ∧
      parse_version true (v ++ ['_', '1']) = .ok pv1 ∧
      parse_version true (v ++ ['.', '0']) = .ok pv0 ∧
      pv.revision = 1 ∧ pv1.revision = 1 ∧
      pv0.comps = pv.comps ++ [0, 0] ∧
      compare_version pv pv1 = 0 ∧
      compare_version pv pv0 = 0 := by
  have hu : '_' ∉ lastPart (pySplit '-' v) := fun hmem =>
    h (mem_of_mem_pySplit '-' v (lastPart (pySplit '-' v))
      (lastPart_mem (pySplit '-' v) (pySplit_ne_nil '-' v)) '_' hmem)
  have hpv : pySplit '_' (lastPart (pySplit '-' v)) = [lastPart (pySplit '-' v)] :=
    pySplit_no_sep '_' (lastPart (pySplit '-' v)) hu
  have hstrip1 : lastPart (pySplit '-' (v ++ ['_', '1'])) =
      lastPart (pySplit '-' v) ++ ['_', '1'] := by
    rw [pySplit_append_no_sep '-' v ['_', '1'] (by decide), lastPart, getLastD_concat]
  have hstrip0 : lastPart (pySplit '-' (v ++ ['.', '0'])) =
      lastPart (pySplit '-' v) ++ ['.', '0'] := by
    rw [pySplit_append_no_sep '-' v ['.', '0'] (by decide), lastPart, getLastD_concat]
  have hsplit1 : pySplit '_' (lastPart (pySplit '-' v) ++ ['_', '1']) =
      [lastPart (pySplit '-' v), ['1']] := by
    have : pySplit '_' (lastPart (pySplit '-' v) ++ '_' :: ['1']) =
        pySplit '_' (lastPart (pySplit '-' v)) ++ pySplit '_' ['1'] :=
      pySplit_append_sep '_' (lastPart (pySplit '-' v)) ['1']
    rw [show (['_', '1'] : List Char) = '_' :: ['1'] from rfl, this, hpv]
    rfl
  have hu0 : '_' ∉ lastPart (pySplit '-' v) ++ ['.', '0'] := by
    intro hmem
    rcases List.mem_append.mp hmem with hmem | hmem
    · exact hu hmem
    · simp at hmem
  have hsplit0 : pySplit '_' (lastPart (pySplit '-' v) ++ ['.', '0']) =
      [lastPart (pySplit '-' v) ++ ['.', '0']] :=
    pySplit_no_sep '_' (lastPart (pySplit '-' v) ++ ['.', '0']) hu0
  refine ⟨⟨parse_components (lastPart (pySplit '-' v)), 1⟩,
    ⟨parse_components (lastPart (pySplit '-' v)), 1⟩,
    ⟨parse_components (lastPart (pySplit '-' v)) ++ [0, 0], 1⟩, ?_, ?_, ?_, rfl, rfl, rfl, ?_, ?_⟩
  · simp [parse_version, hpv]
  · simp only [parse_version, hstrip1, hsplit1, if_true]
    rfl
  · simp [parse_version, hstrip0, hsplit0, parse_components_append_dot_zero]
  · exact compare_version_self _
  · simp [compare_version, compare_comps_append_zeros]

theorem first_at_var_go_no_at (fuel : Nat) :
    ∀ s : List Char, s.length ≤ fuel → '@' ∉ s → first_at_var_go fuel s = none := by
  induction fuel with
  | zero => intro s _ _; cases s <;> rfl
  | succ fuel ih =>
    intro s hlen hat
    cases s with
    | nil => rfl
    | cons c rest =>
      have hc : ¬ (c = '@') := fun h => hat (h ▸ List.mem_cons_self c rest)
      have hrest : '@' ∉ rest := fun h => hat (List.mem_cons_of_mem c h)
      simp only [first_at_var_go, if_neg hc]
      exact ih rest (Nat.le_of_succ_le_succ (by simpa using hlen)) hrest

theorem replace_at_vars_go_of_no_var (resolve : List Char → Option (List Char))
    (fuel : Nat) :
    ∀ s : List Char, s.length ≤ fuel → first_at_var_go fuel s = none →
      replace_at_vars_go resolve fuel s = .ok s := by
  induction fuel with
  | zero =>
    intro s hlen _
    have hs : s = [] := List.eq_nil_of_length_eq_zero (Nat.le_zero.mp hlen)
    subst hs
    rfl
  | succ fuel ih =>
    intro s hlen hfv
    cases s with
    | nil => rfl
    | cons c rest =>
      have hlen' : rest.length ≤ fuel := Nat.le_of_succ_le_succ (by simpa using hlen)
      simp only [first_at_var_go] at hfv
      simp only [replace_at_vars_go]
      by_cases hc : c = '@'
      · rw [if_pos hc] at hfv
        rw [if_pos hc]
        by_cases hcond : rest.takeWhile isVarChar ≠ [] ∧
            (rest.dropWhile isVarChar).head? = some '@'
        · rw [if_pos hcond] at hfv
          exact absurd hfv (by simp)
        · rw [if_neg hcond] at hfv
          rw [if_neg hcond, ih rest hlen' hfv]
      · rw [if_neg hc] at hfv
        rw [if_neg hc, ih rest hlen' hfv]

theorem replace_at_vars_go_of_unknown_var (resolve : List Char → Option (List Char))
    (fuel : Nat) :
    ∀ s name, s.length ≤ fuel → first_at_var_go fuel s = some name →
      resolve name = none →
      ∃ e, replace_at_vars_go resolve fuel s = .error e := by
  induction fuel with
  | zero =>
    intro s name _ hfv
    cases s <;> simp [first_at_var_go] at hfv
  | succ fuel ih =>
    intro s name hlen hfv hres
    cases s with
    | nil => simp [first_at_var_go] at hfv
    | cons c rest =>
      have hlen' : rest.length ≤ fuel := Nat.le_of_succ_le_succ (by simpa using hlen)
      simp only [first_at_var_go] at hfv
      simp only [replace_at_vars_go]
      by_cases hc : c = '@'
      · rw [if_pos hc] at hfv
        rw [if_pos hc]
        by_cases hcond : rest.takeWhile isVarChar ≠ [] ∧
            (rest.dropWhile isVarChar).head? = some '@'
        · rw [if_pos hcond] at hfv
          rw [if_pos hcond]
          have hname : rest.takeWhile isVarChar = name := by
            simpa using hfv
          rw [hname, hres]
          exact ⟨_, rfl⟩
        · rw [if_neg hcond] at hfv
          rw [if_neg hcond]
          obtain ⟨e, he⟩ := ih rest name hlen' hfv hres
          rw [he]
          exact ⟨e, rfl⟩
      · rw [if_neg hc] at hfv
        rw [if_neg hc]
        obtain ⟨e, he⟩ := ih rest name hlen' hfv hres
        rw [he]
        exact ⟨e, rfl⟩

theorem replace_at_vars_go_of_any_unknown (resolve : List Char → Option (List Char))
    (fuel : Nat) :
    ∀ s name, s.length ≤ fuel → name ∈ at_var_list_go fuel s →
      resolve name = none →
      ∃ e, replace_at_vars_go resolve fuel s = .error e := by
  induction fuel with
  | zero =>
    intro s name hlen hmem _
    have hs : s = [] := List.eq_nil_of_length_eq_zero (Nat.le_zero.mp hlen)
    subst hs
    simp [at_var_list_go] at hmem
  | succ fuel ih =>
    intro s name hlen hmem hres
    cases s with
    | nil => simp [at_var_list_go] at hmem
    | cons c rest =>
      have hlen' : rest.length ≤ fuel := Nat.le_of_succ_le_succ (by simpa using hlen)
      simp only [at_var_list_go] at hmem
      simp only [replace_at_vars_go]
      by_cases hc : c = '@'
      · rw [if_pos hc] at hmem
        rw [if_pos hc]
        by_cases hcond : rest.takeWhile isVarChar ≠ [] ∧
            (rest.dropWhile isVarChar).head? = some '@'
        · rw [if_pos hcond] at hmem
          rw [if_pos hcond]
          rcases List.mem_cons.mp hmem with hname | hmem2
          · rw [← hname, hres]
            exact ⟨_, rfl⟩
          · have hlen'' : (rest.dropWhile isVarChar).tail.length ≤ fuel := by
              have h1 : (rest.dropWhile isVarChar).tail.length ≤
                  (rest.dropWhile isVarChar).length := by
                rw [List.length_tail]
                exact Nat.sub_le _ _
              exact le_trans h1 (le_trans (length_dropWhile_le isVarChar rest) hlen')
            cases hres2 : resolve (rest.takeWhile isVarChar) with
            | none => exact ⟨_, rfl⟩
            | some r =>
              obtain ⟨e, he⟩ := ih _ name hlen'' hmem2 hres
              exact ⟨e, by rw [he]⟩
        · rw [if_neg hcond] at hmem
          rw [if_neg hcond]
          obtain ⟨e, he⟩ := ih rest name hlen' hmem hres
          rw [he]
          exact ⟨e, rfl⟩
      · rw [if_neg hc] at hmem
        rw [if_neg hc]
        obtain ⟨e, he⟩ := ih rest name hlen' hmem hres
        rw [he]
        exact ⟨e, rfl⟩

/-- C8.  `replace_at_vars` is the identity on every string without a
`@...@` substitution sequence (in particular on every string without `@`),
and raises whenever any matched `@NAME@` group — not just the first —
names a variable the resolver does not know (`at_var_list` collects all
groups matched by the scan). -/
theorem claim_C8_replace_at_vars (resolve : List Char → Option (List Char))
    (s : List Char) :
    ('@' ∉ s → first_at_var s = none) ∧
    (first_at_var s = none → replace_at_vars resolve s = .ok s) ∧
    (∀ name ∈ at_var_list s, resolve name = none →
      ∃ e, replace_at_vars resolve s = .error e) := by
  refine ⟨?_, ?_, ?_⟩
  · intro hat
    exact first_at_var_go_no_at s.length s (le_refl _) hat
  · intro hfv
    exact replace_at_vars_go_of_no_var resolve s.length s (le_refl _) hfv
  · intro name hmem hres
    exact replace_at_vars_go_of_any_unknown resolve s.length s name (le_refl _) hmem hres

/-- Witness for C8: the plain string `abc` is returned unchanged, and the
string `@A@@B@` raises under a resolver that knows `A` but not `B` — the
unknown group is the second match, not the first. -/
theorem claim_C8_witness :
    replace_at_vars (fun n => if n = ['A'] then some ['v'] else none) ("abc".toList) =
      .ok ("abc".toList) ∧
    (∃ e, replace_at_vars (fun n => if n = ['A'] then some ['v'] else none)
      ("@A@@B@".toList) = .error e) :=
  ⟨(claim_C8_replace_at_vars (fun n => if n = ['A'] then some ['v'] else none)
      ("abc".toList)).2.1 rfl,
    (claim_C8_replace_at_vars (fun n => if n = ['A'] then some ['v'] else none)
      ("@A@@B@".toList)).2.2 (['B']) (by decide) (by decide)⟩

/-- Witness for C10 on the concrete version string `1.2`. -/
theorem claim_C10_witness :
    ∃ pv pv1 pv0 : XbpsVersion,
      parse_version true ("1.2".toList) = .ok pv ∧
      parse_version true ("1.2".toList ++ ['_', '1']) = .ok pv1 ∧
      parse_version true ("1.2".toList ++ ['.', '0']) = .ok pv0 ∧
      pv.revision = 1 ∧ pv1.revision = 1 ∧
      pv0.comps = pv.comps ++ [0, 0] ∧
      compare_version pv pv1 = 0 ∧
      compare_version pv pv0 = 0 :=
  claim_C10_pad_and_default ("1.2".toList) (by decide)

/-- Counterexample to C4 as stated: with `match = [a, b]` and label set
`{a}`, the conjunction over required labels fails, yet `check_labels`
accepts the subject, because the code uses `any` (OR), not `all` (AND). -/
theorem claim_C4_counterexample :
    check_labels (some ["a", "b"]) [] ["a"] = true ∧
    check_labels_conjunctive (some ["a", "b"]) [] ["a"] = false :=
  ⟨rfl, rfl⟩

/-- C4 (amended).  `check_labels` returns true exactly when the label set
contains at least one label of the `match` list (a disjunction, when a
`match` list is present) and no label of the `ban` list. -/
theorem claim_C4_label_matching (labelMatch : Option (List String))
    (labelBan : List String) (s : List String) :
    check_labels labelMatch labelBan s = true ↔
      ((∀ ml, labelMatch = some ml → ∃ x ∈ ml, x ∈ s) ∧
        ∀ x ∈ labelBan, x ∉ s) := by
  cases labelMatch with
  | none =>
    constructor
    · intro h
      refine ⟨(by intro ml hml; cases hml), ?_⟩
      intro x hx hxs
      simp only [check_labels] at h
      rw [if_pos (List.any_eq_true.mpr ⟨x, hx, by simpa using hxs⟩)] at h
      exact absurd h (by simp)
    · intro ⟨_, hban⟩
      simp only [check_labels]
      rw [if_neg]
      intro hany
      obtain ⟨x, hx, hxs⟩ := List.any_eq_true.mp hany
      exact hban x hx (by simpa using hxs)
  | some ml =>
    constructor
    · intro h
      simp only [check_labels] at h
      by_cases hm : ml.any (fun x => decide (x ∈ s)) = true
      · rw [if_neg (by simpa using hm)] at h
        by_cases hb : labelBan.any (fun x => decide (x ∈ s)) = true
        · rw [if_pos hb] at h
          exact absurd h (by simp)
        · obtain ⟨x, hx, hxs⟩ := List.any_eq_true.mp hm
          refine ⟨fun ml' hml' => ?_, fun y hy hys => ?_⟩
          · cases hml'
            exact ⟨x, hx, by simpa using hxs⟩
          · exact hb (List.any_eq_true.mpr ⟨y, hy, by simpa using hys⟩)
      · rw [if_pos (by simpa using hm)] at h
        exact absurd h (by simp)
    · intro ⟨hmatch, hban⟩
      obtain ⟨x, hx, hxs⟩ := hmatch ml rfl
      simp only [check_labels]
      rw [if_neg (by simp [List.any_eq_true]; exact ⟨x, hx, hxs⟩)]
      rw [if_neg]
      intro hany
      obtain ⟨y, hy, hys⟩ := List.any_eq_true.mp hany
      exact hban y hy (by simpa using hys)

/-- Witness for the amended C4 at a concrete site configuration. -/
theorem claim_C4_witness :
    check_labels (some ["a", "b"]) ["z"] ["b", "c"] = true ↔
      ((∀ ml, (some ["a", "b"] : Option (List String)) = some ml →
          ∃ x ∈ ml, x ∈ (["b", "c"] : List String)) ∧
        ∀ x ∈ (["z"] : List String), x ∉ (["b", "c"] : List String)) :=
  claim_C4_label_matching (some ["a", "b"]) ["z"] ["b", "c"]

/-- C7.  For a `PULL_PKG_PACK` probe with xbps in use, remote checking
enabled, and both repodata entries present and parseable, the reported
state is not missing and is updatable exactly when the remote version
compares strictly greater than the local one. -/
theorem claim_C7_pull_updatable (checkRemotes : Nat) (lv rv : List Char)
    (v rv' : XbpsVersion)
    (hcr : checkRemotes ≠ 0)
    (hlv : parse_version true lv = .ok v)
    (hrv : parse_version true rv = .ok rv') :
    check_if_pull_needed true checkRemotes (some lv) (some rv) =
      .ok { missing := false,
            updatable := decide (compare_version v rv' < 0),
            timestamp := none } := by
  by_cases h : compare_version v rv' < 0
  · simp [check_if_pull_needed, hcr, hlv, hrv, h]
  · simp [check_if_pull_needed, hcr, hlv, hrv, h]

/-- Witness for C7: local version 1.0, remote version 1.1. -/
theorem claim_C7_witness :
    check_if_pull_needed true 1 (some ("1.0".toList)) (some ("1.1".toList)) =
      .ok { missing := false,
            updatable := decide (compare_version ⟨[1, 0, 0], 1⟩ ⟨[1, 0, 1], 1⟩ < 0),
            timestamp := none } :=
  claim_C7_pull_updatable 1 ("1.0".toList) ("1.1".toList)
    ⟨[1, 0, 0], 1⟩ ⟨[1, 0, 1], 1⟩ (by decide) rfl rfl

/-- C5 (the code evaluated at the failing input).  With the reproduced
collect tree holding `f` as a directory and the staged tree holding `f` as
a regular file, the file types disagree on a common path, yet
`REPRODUCE_BUILD_PKG` succeeds (and performs no rename): the diff loop of
`build_pkg` stats the collect tree for both sides of the file-type
comparison, so the mismatch is never seen. -/
theorem claim_C5_reproduce_type_mismatch_missed :
    build_pkg true [("f", ⟨FType.dir, ""⟩)] [("f", ⟨FType.reg, "x"⟩)] =
      .ok ([("f", ⟨FType.dir, ""⟩)], [("f", ⟨FType.reg, "x"⟩)]) ∧
    (⟨FType.dir, ""⟩ : FNode).ftype ≠ (⟨FType.reg, "x"⟩ : FNode).ftype :=
  ⟨rfl, by decide⟩

/-- Counterexample to C6 as stated: a configuration declaring the tool `t`
twice loads without error; the second declaration (index 1) silently
overwrites the first. -/
theorem claim_C6_counterexample :
    parse_yml [] [("t", none), ("t", none)] [] [] =
      .ok ⟨[], [("t", 1)], [], []⟩ := rfl

theorem dictInsert_keys (m : List (String × Nat)) (k : String) (v : Nat) (x : String) :
    x ∈ (dictInsert m k v).map Prod.fst ↔ x ∈ m.map Prod.fst ∨ x = k := by
  unfold dictInsert
  by_cases hk : m.any (fun p => decide (p.1 = k)) = true
  · rw [if_pos hk]
    obtain ⟨p, hp, hpk⟩ := List.any_eq_true.mp hk
    have hpk' : p.1 = k := of_decide_eq_true hpk
    constructor
    · intro hx
      obtain ⟨q, hq, hqx⟩ := List.mem_map.mp hx
      obtain ⟨q0, hq0, hq0q⟩ := List.mem_map.mp hq
      by_cases h0 : q0.1 = k
      · right
        rw [← hqx, ← hq0q, if_pos h0]
      · left
        rw [← hqx, ← hq0q, if_neg h0]
        exact List.mem_map.mpr ⟨q0, hq0, rfl⟩
    · intro hx
      rcases hx with hx | hx
      · obtain ⟨q, hq, hqx⟩ := List.mem_map.mp hx
        by_cases h0 : q.1 = k
        · refine List.mem_map.mpr ⟨(k, v), List.mem_map.mpr ⟨q, hq, by rw [if_pos h0]⟩, ?_⟩
          rw [← hqx, h0]
        · exact List.mem_map.mpr ⟨q, List.mem_map.mpr ⟨q, hq, by rw [if_neg h0]⟩, hqx⟩
      · subst hx
        exact List.mem_map.mpr ⟨(x, v), List.mem_map.mpr ⟨p, hp, by rw [if_pos hpk']⟩, rfl⟩
  · rw [if_neg hk]
    rw [List.map_append, List.mem_append]
    constructor
    · intro hx
      rcases hx with hx | hx
      · exact Or.inl hx
      · simp at hx
        exact Or.inr hx
    · intro hx
      rcases hx with hx | hx
      · exact Or.inl hx
      · subst hx
        exact Or.inr (by simp)

theorem register_sources_spec :
    ∀ (decls seen : List String), seen.Nodup →
      (register_sources seen decls = .ok (seen ++ decls) ∧ (seen ++ decls).Nodup) ∨
      ((∃ e, register_sources seen decls = .error e) ∧ ¬ (seen ++ decls).Nodup) := by
  intro decls
  induction decls with
  | nil =>
    intro seen hnd
    left
    rw [List.append_nil]
    exact ⟨rfl, hnd⟩
  | cons n rest ih =>
    intro seen hnd
    by_cases hn : n ∈ seen
    · right
      constructor
      · exact ⟨"Duplicate source " ++ n, by simp [register_sources, hn]⟩
      · intro hcontra
        have hdis := (List.nodup_append.mp hcontra).2.2
        exact hdis hn (List.mem_cons_self n rest)
    · have hnd' : (seen ++ [n]).Nodup := by
        rw [List.nodup_append]
        exact ⟨hnd, List.nodup_singleton n, by
          intro x hx hx2
          simp at hx2
          subst hx2
          exact hn hx⟩
      have hstep : register_sources seen (n :: rest) = register_sources (seen ++ [n]) rest := by
        simp [register_sources, hn]
      have hassoc : (seen ++ [n]) ++ rest = seen ++ n :: rest := by
        simp
      rcases ih (seen ++ [n]) hnd' with ⟨hok, hndr⟩ | ⟨⟨e, herr⟩, hndr⟩
      · left
        rw [hstep, hok, hassoc]
        rw [hassoc] at hndr
        exact ⟨rfl, hndr⟩
      · right
        refine ⟨⟨e, by rw [hstep, herr]⟩, ?_⟩
        rw [← hassoc]
        exact hndr

theorem register_tools_spec :
    ∀ (decls : List (String × Option String)) (sources : List String)
      (tools : List (String × Nat)) (idx : Nat), sources.Nodup →
      ((∃ sOut tOut, register_tools sources tools idx decls = .ok (sOut, tOut) ∧
          sOut = sources ++ decls.filterMap Prod.snd ∧ sOut.Nodup ∧
          (∀ x, x ∈ tOut.map Prod.fst ↔
            x ∈ tools.map Prod.fst ∨ x ∈ decls.map Prod.fst)) ∧
        (sources ++ decls.filterMap Prod.snd).Nodup) ∨
      ((∃ e, register_tools sources tools idx decls = .error e) ∧
        ¬ (sources ++ decls.filterMap Prod.snd).Nodup) := by
  intro decls
  induction decls with
  | nil =>
    intro sources tools idx hnd
    left
    refine ⟨⟨sources, tools, rfl, by simp, by simpa using hnd, ?_⟩, by simpa using hnd⟩
    intro x
    simp
  | cons d rest ih =>
    intro sources tools idx hnd
    obtain ⟨n, inl⟩ := d
    cases inl with
    | none =>
      rcases ih sources (dictInsert tools n idx) (idx + 1) hnd with
        ⟨⟨sOut, tOut, hok, hs, hsnd, hkeys⟩, hgood⟩ | ⟨⟨e, herr⟩, hbad⟩
      · left
        refine ⟨⟨sOut, tOut, by simpa [register_tools] using hok,
          by simpa using hs, hsnd, ?_⟩, by simpa using hgood⟩
        intro x
        rw [hkeys x, dictInsert_keys]
        simp only [List.map_cons, List.mem_cons]
        tauto
      · right
        exact ⟨⟨e, by simpa [register_tools] using herr⟩, by simpa using hbad⟩
    | some srcName =>
      by_cases hsrc : srcName ∈ sources
      · right
        constructor
        · exact ⟨"Duplicate source " ++ srcName, by simp [register_tools, hsrc]⟩
        · intro hcontra
          simp only [List.filterMap_cons] at hcontra
          have hdis := (List.nodup_append.mp hcontra).2.2
          exact hdis hsrc (List.mem_cons_self srcName _)
      · have hnd' : (sources ++ [srcName]).Nodup := by
          rw [List.nodup_append]
          exact ⟨hnd, List.nodup_singleton srcName, by
            intro x hx hx2
            simp at hx2
            subst hx2
            exact hsrc hx⟩
        have hstep : register_tools sources tools idx ((n, some srcName) :: rest) =
            register_tools (sources ++ [srcName]) (dictInsert tools n idx) (idx + 1) rest := by
          simp [register_tools, hsrc]
        have hassoc : (sources ++ [srcName]) ++ rest.filterMap Prod.snd =
            sources ++ ((n, some srcName) :: rest).filterMap Prod.snd := by
          simp [List.filterMap_cons]
        rcases ih (sources ++ [srcName]) (dictInsert tools n idx) (idx + 1) hnd' with
          ⟨⟨sOut, tOut, hok, hs, hsnd, hkeys⟩, hgood⟩ | ⟨⟨e, herr⟩, hbad⟩
        · left
          refine ⟨⟨sOut, tOut, by rw [hstep]; exact hok, ?_, hsnd, ?_⟩, ?_⟩
          · rw [hs, ← hassoc]
          · intro x
            rw [hkeys x, dictInsert_keys]
            simp only [List.map_cons, List.mem_cons]
            tauto
          · rw [← hassoc]
            exact hgood
        · right
          refine ⟨⟨e, by rw [hstep]; exact herr⟩, ?_⟩
          rw [← hassoc]
          exact hbad

theorem register_tasks_keys :
    ∀ (decls : List String) (tasks : List (String × Nat)) (idx : Nat) (x : String),
      x ∈ (register_tasks tasks idx decls).map Prod.fst ↔
        x ∈ tasks.map Prod.fst ∨ x ∈ decls := by
  intro decls
  induction decls with
  | nil => intro tasks idx x; simp [register_tasks]
  | cons n rest ih =>
    intro tasks idx x
    rw [show register_tasks tasks idx (n :: rest) =
        register_tasks (dictInsert tasks n idx) (idx + 1) rest from rfl]
    rw [ih (dictInsert tasks n idx) (idx + 1) x, dictInsert_keys]
    simp only [List.mem_cons]
    tauto

/-- C6 (amended).  Loading fails at load time (with a `Duplicate source`
error) exactly when some *source* name is registered twice, counting the
sources induced by inline tool/package `source:` blocks; duplicate tool,
package, or task declarations do not fail: the later declaration
overwrites the earlier one and the name is registered once. -/
theorem claim_C6_duplicate_subjects (srcDecls : List String)
    (toolDecls pkgDecls : List (String × Option String)) (taskDecls : List String) :
    ((∃ r, parse_yml srcDecls toolDecls pkgDecls taskDecls = .ok r) ↔
      (srcDecls ++ toolDecls.filterMap Prod.snd ++ pkgDecls.filterMap Prod.snd).Nodup) ∧
    (∀ r, parse_yml srcDecls toolDecls pkgDecls taskDecls = .ok r →
      (∀ x, x ∈ r.tools.map Prod.fst ↔ x ∈ toolDecls.map Prod.fst) ∧
      (∀ x, x ∈ r.pkgs.map Prod.fst ↔ x ∈ pkgDecls.map Prod.fst) ∧
      (∀ x, x ∈ r.tasks.map Prod.fst ↔ x ∈ taskDecls)) := by
  rcases register_sources_spec srcDecls [] List.nodup_nil with
    ⟨hok1, hnd1⟩ | ⟨⟨e1, herr1⟩, hbad1⟩
  · rw [List.nil_append] at hok1 hnd1
    rcases register_tools_spec toolDecls srcDecls [] 0 hnd1 with
      ⟨⟨s2, t2, hok2, hs2, hnd2, hkeys2⟩, _⟩ | ⟨⟨e2, herr2⟩, hbad2⟩
    · rcases register_tools_spec pkgDecls s2 [] 0 hnd2 with
        ⟨⟨s3, t3, hok3, hs3, _, hkeys3⟩, hgood3⟩ | ⟨⟨e3, herr3⟩, hbad3⟩
      · constructor
        · constructor
          · intro _
            rw [hs2] at hgood3
            exact hgood3
          · intro _
            exact ⟨⟨s3, t2, t3, register_tasks [] 0 taskDecls⟩, by
              simp [parse_yml, hok1, hok2, hok3]⟩
        · intro r hr
          simp only [parse_yml, hok1, hok2, hok3] at hr
          have hr' : r = ⟨s3, t2, t3, register_tasks [] 0 taskDecls⟩ := by
            cases hr
            rfl
          subst hr'
          refine ⟨?_, ?_, ?_⟩
          · intro x
            rw [hkeys2 x]
            simp
          · intro x
            rw [hkeys3 x]
            simp
          · intro x
            rw [register_tasks_keys taskDecls [] 0 x]
            simp
      · constructor
        · constructor
          · intro ⟨r, hr⟩
            simp [parse_yml, hok1, hok2, herr3] at hr
          · intro hcontra
            exfalso
            apply hbad3
            rw [hs2]
            exact hcontra
        · intro r hr
          simp [parse_yml, hok1, hok2, herr3] at hr
    · constructor
      · constructor
        · intro ⟨r, hr⟩
          simp [parse_yml, hok1, herr2] at hr
        · intro hcontra
          exfalso
          apply hbad2
          exact (List.nodup_append.mp hcontra).1
      · intro r hr
        simp [parse_yml, hok1, herr2] at hr
  · rw [List.nil_append] at hbad1
    constructor
    · constructor
      · intro ⟨r, hr⟩
        simp [parse_yml, herr1] at hr
      · intro hcontra
        exfalso
        apply hbad1
        have h1 : (srcDecls ++ toolDecls.filterMap Prod.snd).Nodup :=
          (List.nodup_append.mp hcontra).1
        exact (List.nodup_append.mp h1).1
    · intro r hr
      simp [parse_yml, herr1] at hr

/-- Witness for the amended C6: one source, the tool `t` declared twice,
one package with an inline source, one task. -/
theorem claim_C6_witness :
    ((∃ r, parse_yml ["s"] [("t", none), ("t", none)] [("p", some "ps")] ["k"] = .ok r) ↔
      ((["s"] : List String) ++ [("t", (none : Option String)), ("t", none)].filterMap Prod.snd ++
        [("p", some "ps")].filterMap Prod.snd).Nodup) ∧
    (∀ r, parse_yml ["s"] [("t", none), ("t", none)] [("p", some "ps")] ["k"] = .ok r →
      (∀ x, x ∈ r.tools.map Prod.fst ↔
        x ∈ [("t", (none : Option String)), ("t", none)].map Prod.fst) ∧
      (∀ x, x ∈ r.pkgs.map Prod.fst ↔
        x ∈ [("p", some "ps")].map Prod.fst) ∧
      (∀ x, x ∈ r.tasks.map Prod.fst ↔ x ∈ (["k"] : List String))) :=
  claim_C6_duplicate_subjects ["s"] [("t", none), ("t", none)] [("p", some "ps")] ["k"]

section PlanProofs

variable {K : Type} [DecidableEq K]

theorem mat_visit_spec (es : List K) :
    ∀ (vis stk items : List K),
      (items ++ stk).Nodup → (∀ x, x ∈ vis ↔ x ∈ items ∨ x ∈ stk) →
      (items ++ (mat_visit es vis stk).2).Nodup ∧
      (∀ x, x ∈ (mat_visit es vis stk).1 ↔ x ∈ items ∨ x ∈ (mat_visit es vis stk).2) ∧
      (∀ e ∈ es, e ∈ (mat_visit es vis stk).1) ∧
      (∀ x ∈ vis, x ∈ (mat_visit es vis stk).1) ∧
      (∀ x ∈ stk, x ∈ (mat_visit es vis stk).2) := by
  induction es with
  | nil =>
    intro vis stk items hnd hiff
    exact ⟨hnd, hiff, by simp, fun x hx => hx, fun x hx => hx⟩
  | cons e es ih =>
    intro vis stk items hnd hiff
    by_cases he : e ∈ vis
    · rw [show mat_visit (e :: es) vis stk = mat_visit es vis stk from by
        simp [mat_visit, he]]
      obtain ⟨h1, h2, h3, h4, h5⟩ := ih vis stk items hnd hiff
      refine ⟨h1, h2, ?_, h4, h5⟩
      intro x hx
      rcases List.mem_cons.mp hx with hx | hx
      · rw [hx]; exact h4 e he
      · exact h3 x hx
    · rw [show mat_visit (e :: es) vis stk = mat_visit es (e :: vis) (e :: stk) from by
        simp [mat_visit, he]]
      have hem : e ∉ items ++ stk := by
        intro hmem
        rcases List.mem_append.mp hmem with hmem | hmem
        · exact he ((hiff e).mpr (Or.inl hmem))
        · exact he ((hiff e).mpr (Or.inr hmem))
      have hnd' : (items ++ e :: stk).Nodup := by
        rw [List.nodup_middle, List.nodup_cons]
        exact ⟨hem, hnd⟩
      have hiff' : ∀ x, x ∈ e :: vis ↔ x ∈ items ∨ x ∈ e :: stk := by
        intro x
        simp only [List.mem_cons, hiff x]
        tauto
      obtain ⟨h1, h2, h3, h4, h5⟩ := ih (e :: vis) (e :: stk) items hnd' hiff'
      refine ⟨h1, h2, ?_, ?_, ?_⟩
      · intro x hx
        rcases List.mem_cons.mp hx with hx | hx
        · rw [hx]; exact h4 e (List.mem_cons_self e vis)
        · exact h3 x hx
      · intro x hx
        exact h4 x (List.mem_cons_of_mem e hx)
      · intro x hx
        exact h5 x (List.mem_cons_of_mem e hx)

theorem mat_loop_spec (g : PlanGraph K) :
    ∀ (fuel : Nat) (stk vis items out : List K),
      (items ++ stk).Nodup →
      (∀ x, x ∈ vis ↔ x ∈ items ∨ x ∈ stk) →
      (∀ i ∈ items, ∀ e, e ∈ g.build i ∨ e ∈ g.require i → e ∈ vis) →
      mat_loop g fuel stk vis items = .ok out →
      out.Nodup ∧ (∀ x ∈ vis, x ∈ out) ∧
      (∀ i ∈ out, ∀ e, e ∈ g.build i ∨ e ∈ g.require i → e ∈ out) ∧
      (∀ x ∈ items, x ∈ out) := by
  intro fuel
  induction fuel with
  | zero =>
    intro stk vis items out hnd hiff hclo hok
    cases stk with
    | nil =>
      have hout : items = out := by
        simpa [mat_loop] using hok
      subst hout
      refine ⟨by simpa using hnd, ?_, ?_, fun x hx => hx⟩
      · intro x hx
        rcases (hiff x).mp hx with hx | hx
        · exact hx
        · simp at hx
      · intro i hi e hedge
        rcases (hiff e).mp (hclo i hi e hedge) with hmem | hmem
        · exact hmem
        · simp at hmem
    | cons k stk' => simp [mat_loop] at hok
  | succ fuel ih =>
    intro stk vis items out hnd hiff hclo hok
    cases stk with
    | nil =>
      have hout : items = out := by
        simpa [mat_loop] using hok
      subst hout
      refine ⟨by simpa using hnd, ?_, ?_, fun x hx => hx⟩
      · intro x hx
        rcases (hiff x).mp hx with hx | hx
        · exact hx
        · simp at hx
      · intro i hi e hedge
        rcases (hiff e).mp (hclo i hi e hedge) with hmem | hmem
        · exact hmem
        · simp at hmem
    | cons k stk' =>
      rcases h1 : mat_visit (g.build k) vis stk' with ⟨vis1, stk1⟩
      rcases h2 : mat_visit (g.require k) vis1 stk1 with ⟨vis2, stk2⟩
      have hstep : mat_loop g (fuel + 1) (k :: stk') vis items =
          mat_loop g fuel stk2 vis2 (items ++ [k]) := by
        simp [mat_loop, h1, h2]
      rw [hstep] at hok
      have hnd0 : ((items ++ [k]) ++ stk').Nodup := by
        rw [List.append_assoc]
        simpa using hnd
      have hiff0 : ∀ x, x ∈ vis ↔ x ∈ items ++ [k] ∨ x ∈ stk' := by
        intro x
        rw [hiff x]
        simp only [List.mem_append, List.mem_singleton, List.mem_cons]
        tauto
      obtain ⟨hand1, haiff1, hsub1, hvis1, hstk1⟩ :=
        mat_visit_spec (g.build k) vis stk' (items ++ [k]) hnd0 hiff0
      rw [h1] at hand1 haiff1 hsub1 hvis1 hstk1
      obtain ⟨hand2, haiff2, hsub2, hvis2, hstk2⟩ :=
        mat_visit_spec (g.require k) vis1 stk1 (items ++ [k]) hand1 haiff1
      rw [h2] at hand2 haiff2 hsub2 hvis2 hstk2
      have hclo2 : ∀ i ∈ items ++ [k], ∀ e, e ∈ g.build i ∨ e ∈ g.require i → e ∈ vis2 := by
        intro i hi e hedge
        rcases List.mem_append.mp hi with hi | hi
        · exact hvis2 e (hvis1 e (hclo i hi e hedge))
        · have hik : i = k := by simpa using hi
          subst hik
          rcases hedge with hedge | hedge
          · exact hvis2 e (hsub1 e hedge)
          · exact hsub2 e hedge
      obtain ⟨hcnd, hcvis, hcclo, hcitems⟩ :=
        ih stk2 vis2 (items ++ [k]) out hand2 haiff2 hclo2 hok
      refine ⟨hcnd, ?_, hcclo, ?_⟩
      · intro x hx
        exact hcvis x (hvis2 x (hvis1 x hx))
      · intro x hx
        exact hcitems x (List.mem_append.mpr (Or.inl hx))

theorem do_materialization_spec (g : PlanGraph K) (wanted : List K) (fuel : Nat)
    (items : List K) (hok : do_materialization g wanted fuel = .ok items) :
    items.Nodup ∧ (∀ w ∈ wanted, w ∈ items) ∧
    (∀ i ∈ items, ∀ e, e ∈ g.build i ∨ e ∈ g.require i → e ∈ items) := by
  have h := mat_loop_spec g fuel wanted.dedup wanted.dedup [] items
    (by simpa using wanted.nodup_dedup)
    (by intro x; simp)
    (by intro i hi; simp at hi)
    hok
  exact ⟨h.1, fun w hw => h.2.1 w (List.mem_dedup.mpr hw), h.2.2.1⟩

theorem indexOf_append_left (l t : List K) (y : K) (hy : y ∈ l) :
    (l ++ t).indexOf y = l.indexOf y := by
  induction l with
  | nil => simp at hy
  | cons a l2 ih =>
    by_cases ha : a = y
    · rw [ha]
      simp [List.indexOf_cons_self]
    · rw [List.cons_append, List.indexOf_cons_ne _ ha, List.indexOf_cons_ne _ ha,
        ih (by
          rcases List.mem_cons.mp hy with h | h
          · exact absurd h.symm ha
          · exact h)]

theorem indexOf_append_self (l : List K) (y : K) (hy : y ∉ l) :
    (l ++ [y]).indexOf y = l.length := by
  induction l with
  | nil => simp [List.indexOf_cons_self]
  | cons a l2 ih =>
    have ha : a ≠ y := by
      intro h
      exact hy (h ▸ List.mem_cons_self a l2)
    rw [List.cons_append, List.indexOf_cons_ne _ ha,
      ih (fun h => hy (List.mem_cons_of_mem a h))]
    rfl

theorem indexOf_lt_length_of_mem (l : List K) (y : K) (hy : y ∈ l) :
    l.indexOf y < l.length := by
  induction l with
  | nil => simp at hy
  | cons a l2 ih =>
    by_cases ha : a = y
    · rw [ha, List.indexOf_cons_self]
      simp
    · rw [List.indexOf_cons_ne _ ha]
      have : l2.indexOf y < l2.length := ih (by
        rcases List.mem_cons.mp hy with h | h
        · exact absurd h.symm ha
        · exact h)
      simpa using Nat.succ_lt_succ this

theorem mem_take_of_indexOf_lt (l : List K) (y : K) :
    ∀ n : Nat, y ∈ l → l.indexOf y < n → y ∈ l.take n := by
  induction l with
  | nil => intro n hy; simp at hy
  | cons a l2 ih =>
    intro n hy hidx
    cases n with
    | zero =>
      by_cases ha : a = y
      · rw [ha, List.indexOf_cons_self] at hidx
        simp at hidx
      · rw [List.indexOf_cons_ne _ ha] at hidx
        simp at hidx
    | succ n =>
      by_cases ha : a = y
      · rw [List.take_succ_cons, ha]
        exact List.mem_cons_self y _
      · rw [List.indexOf_cons_ne _ ha] at hidx
        have hym : y ∈ l2 := by
          rcases List.mem_cons.mp hy with h | h
          · exact absurd h.symm ha
          · exact h
        rw [List.take_succ_cons]
        exact List.mem_cons_of_mem a (ih n hym (Nat.lt_of_succ_lt_succ hidx))

theorem topoGood_indexOf (edges : K → List K) (ord : List K)
    (hgood : TopoGood edges ord) : ord.Nodup →
    ∀ k ∈ ord, ∀ e ∈ edges k, e ∈ ord ∧ ord.indexOf e < ord.indexOf k := by
  induction hgood with
  | nil => intro _ k hk; simp at hk
  | snoc l k hg hsub ih =>
    intro hnd k2 hk2 e he
    have hndl : l.Nodup := (List.nodup_append.mp hnd).1
    have hknl : k ∉ l := by
      intro hmem
      exact (List.nodup_append.mp hnd).2.2 hmem (List.mem_singleton_self k)
    rcases List.mem_append.mp hk2 with hk2m | hk2m
    · obtain ⟨hel, hidx⟩ := ih hndl k2 hk2m e he
      refine ⟨List.mem_append.mpr (Or.inl hel), ?_⟩
      rw [indexOf_append_left l [k] e hel, indexOf_append_left l [k] k2 hk2m]
      exact hidx
    · have hk2k : k2 = k := by simpa using hk2m
      have hel : e ∈ l := hsub e (hk2k ▸ he)
      refine ⟨List.mem_append.mpr (Or.inl hel), ?_⟩
      rw [hk2k, indexOf_append_left l [k] e hel, indexOf_append_self l k hknl]
      exact indexOf_lt_length_of_mem l e hel

theorem topoGood_acyclic (edges : K → List K) (ord : List K)
    (hgood : TopoGood edges ord) (hnd : ord.Nodup) :
    ∀ k ∈ ord, ¬ Relation.TransGen (fun a b => b ∈ edges a) k k := by
  have hstep : ∀ a b, b ∈ edges a → a ∈ ord →
      b ∈ ord ∧ ord.indexOf b < ord.indexOf a :=
    fun a b hb ha => topoGood_indexOf edges ord hgood hnd a ha b hb
  have hmain : ∀ a b, Relation.TransGen (fun a2 b2 => b2 ∈ edges a2) a b → a ∈ ord →
      b ∈ ord ∧ ord.indexOf b < ord.indexOf a := by
    intro a b h
    induction h with
    | single h1 => intro ha; exact hstep _ _ h1 ha
    | tail _ h2 ih =>
      intro ha
      obtain ⟨hbord, hbidx⟩ := ih ha
      obtain ⟨hcord, hcidx⟩ := hstep _ _ h2 hbord
      exact ⟨hcord, lt_trans hcidx hbidx⟩
  intro k hk hcyc
  exact absurd (hmain k k hcyc hk).2 (lt_irrefl _)

omit [DecidableEq K] in
theorem chain_inv_mono (edges : K → List K) :
    ∀ (stack : List (K × List K)) (ord ord2 above above2 : List K),
      (∀ x, (x ∈ ord ∨ x ∈ above) → (x ∈ ord2 ∨ x ∈ above2)) →
      chain_inv edges ord above stack → chain_inv edges ord2 above2 stack := by
  intro stack
  induction stack with
  | nil => intro _ _ _ _ _ _; trivial
  | cons p rest ih =>
    intro ord ord2 above above2 himp hinv
    obtain ⟨k, es⟩ := p
    obtain ⟨⟨pre, hpre, hmem⟩, hrest⟩ := hinv
    refine ⟨⟨pre, hpre, fun e he => himp e (hmem e he)⟩, ?_⟩
    refine ih ord ord2 (k :: above) (k :: above2) ?_ hrest
    intro x hx
    rcases hx with hx | hx
    · rcases himp x (Or.inl hx) with h | h
      · exact Or.inl h
      · exact Or.inr (List.mem_cons_of_mem k h)
    · rcases List.mem_cons.mp hx with hx | hx
      · exact Or.inr (hx ▸ List.mem_cons_self k above2)
      · rcases himp x (Or.inr hx) with h | h
        · exact Or.inl h
        · exact Or.inr (List.mem_cons_of_mem k h)

theorem topo_run_spec (edges : K → List K) (items : List K)
    (hedge : ∀ k e, e ∈ edges k → e ∈ items) :
    ∀ (fuel : Nat) (roots : List K) (stack : List (K × List K)) (order out : List K),
      (order ++ stack.map Prod.fst).Nodup →
      TopoGood edges order →
      chain_inv edges order [] stack →
      (∀ x ∈ order, x ∈ items) →
      (∀ p ∈ stack, p.1 ∈ items) →
      (∀ r ∈ roots, r ∈ items) →
      topo_run edges fuel roots stack order = .ok out →
      out.Nodup ∧ TopoGood edges out ∧ (∀ x ∈ out, x ∈ items) ∧
      (∀ x ∈ order, x ∈ out) ∧ (∀ p ∈ stack, p.1 ∈ out) ∧
      (∀ r ∈ roots, r ∈ out) := by
  intro fuel
  induction fuel with
  | zero =>
    intro roots stack order out _ _ _ _ _ _ hok
    simp [topo_run] at hok
  | succ fuel ih =>
    intro roots stack order out hnd hgood hchain hordm hstkm hrootm hok
    cases stack with
    | nil =>
      cases roots with
      | nil =>
        have hout : order = out := by
          simpa [topo_run] using hok
        subst hout
        exact ⟨by simpa using hnd, hgood, hordm, fun x hx => hx,
          by intro p hp; simp at hp, by intro r hr; simp at hr⟩
      | cons r rs =>
        by_cases hr : r ∈ order
        · rw [show topo_run edges (fuel + 1) (r :: rs) [] order =
              topo_run edges fuel rs [] order from by
            simp [topo_run, hr]] at hok
          obtain ⟨c1, c2, c3, c4, c5, c6⟩ :=
            ih rs [] order out hnd hgood hchain hordm (by intro p hp; simp at hp)
              (fun r2 hr2 => hrootm r2 (List.mem_cons_of_mem r hr2)) hok
          refine ⟨c1, c2, c3, c4, c5, ?_⟩
          intro r2 hr2
          rcases List.mem_cons.mp hr2 with h | h
          · exact h ▸ c4 r hr
          · exact c6 r2 h
        · rw [show topo_run edges (fuel + 1) (r :: rs) [] order =
              topo_run edges fuel rs [(r, edges r)] order from by
            simp [topo_run, hr]] at hok
          have hnd2 : (order ++ [(r, edges r)].map Prod.fst).Nodup := by
            simp only [List.map_cons, List.map_nil]
            rw [List.nodup_middle, List.nodup_cons]
            constructor
            · intro hmem
              simp at hmem
              exact hr hmem
            · simpa using hnd
          have hchain2 : chain_inv edges order [] [(r, edges r)] :=
            ⟨⟨[], rfl, by intro e he; simp at he⟩, trivial⟩
          obtain ⟨c1, c2, c3, c4, c5, c6⟩ :=
            ih rs [(r, edges r)] order out hnd2 hgood hchain2 hordm
              (by
                intro p hp
                rcases List.mem_cons.mp hp with h | h
                · rw [h]; exact hrootm r (List.mem_cons_self r rs)
                · simp at h)
              (fun r2 hr2 => hrootm r2 (List.mem_cons_of_mem r hr2)) hok
          refine ⟨c1, c2, c3, c4, by intro p hp; simp at hp, ?_⟩
          intro r2 hr2
          rcases List.mem_cons.mp hr2 with h | h
          · exact h ▸ c5 (r, edges r) (List.mem_cons_self _ _)
          · exact c6 r2 h
    | cons entry rest =>
      obtain ⟨k, es⟩ := entry
      cases es with
      | nil =>
        rw [show topo_run edges (fuel + 1) roots ((k, []) :: rest) order =
            topo_run edges fuel roots rest (order ++ [k]) from by
          simp [topo_run]] at hok
        obtain ⟨⟨pre, hpre, hprem⟩, hrest⟩ := hchain
        have hsub : ∀ e ∈ edges k, e ∈ order := by
          intro e he
          rw [hpre, List.append_nil] at he
          rcases hprem e he with h | h
          · exact h
          · simp at h
        have hgood2 : TopoGood edges (order ++ [k]) := TopoGood.snoc order k hgood hsub
        have hnd2 : ((order ++ [k]) ++ rest.map Prod.fst).Nodup := by
          rw [List.append_assoc, List.singleton_append]
          simpa using hnd
        have hchain2 : chain_inv edges (order ++ [k]) [] rest := by
          refine chain_inv_mono edges rest order (order ++ [k]) [k] [] ?_ hrest
          intro x hx
          rcases hx with hx | hx
          · exact Or.inl (List.mem_append.mpr (Or.inl hx))
          · exact Or.inl (List.mem_append.mpr (Or.inr hx))
        have hordm2 : ∀ x ∈ order ++ [k], x ∈ items := by
          intro x hx
          rcases List.mem_append.mp hx with hx | hx
          · exact hordm x hx
          · have : x = k := by simpa using hx
            exact this ▸ hstkm (k, []) (List.mem_cons_self _ _)
        obtain ⟨c1, c2, c3, c4, c5, c6⟩ :=
          ih roots rest (order ++ [k]) out hnd2 hgood2 hchain2 hordm2
            (fun p hp => hstkm p (List.mem_cons_of_mem _ hp)) hrootm hok
        refine ⟨c1, c2, c3, ?_, ?_, c6⟩
        · intro x hx
          exact c4 x (List.mem_append.mpr (Or.inl hx))
        · intro p hp
          rcases List.mem_cons.mp hp with h | h
          · rw [h]
            exact c4 k (List.mem_append.mpr (Or.inr (List.mem_singleton_self k)))
          · exact c5 p h
      | cons e es2 =>
        obtain ⟨⟨pre, hpre, hprem⟩, hrest⟩ := hchain
        by_cases he : e ∈ order
        · rw [show topo_run edges (fuel + 1) roots ((k, e :: es2) :: rest) order =
              topo_run edges fuel roots ((k, es2) :: rest) order from by
            simp [topo_run, he]] at hok
          have hchain2 : chain_inv edges order [] ((k, es2) :: rest) := by
            refine ⟨⟨pre ++ [e], by rw [hpre, List.append_assoc, List.singleton_append], ?_⟩, hrest⟩
            intro e2 he2
            rcases List.mem_append.mp he2 with h | h
            · exact hprem e2 h
            · have : e2 = e := by simpa using h
              exact Or.inl (this ▸ he)
          obtain ⟨c1, c2, c3, c4, c5, c6⟩ :=
            ih roots ((k, es2) :: rest) order out (by simpa using hnd) hgood hchain2
              hordm
              (by
                intro p hp
                rcases List.mem_cons.mp hp with h | h
                · rw [h]; exact hstkm (k, e :: es2) (List.mem_cons_self _ _)
                · exact hstkm p (List.mem_cons_of_mem _ h))
              hrootm hok
          refine ⟨c1, c2, c3, c4, ?_, c6⟩
          intro p hp
          rcases List.mem_cons.mp hp with h | h
          · rw [h]
            exact c5 (k, es2) (List.mem_cons_self _ _)
          · exact c5 p (List.mem_cons_of_mem _ h)
        · by_cases hcy : e = k ∨ e ∈ rest.map Prod.fst
          · rw [show topo_run edges (fuel + 1) roots ((k, e :: es2) :: rest) order =
                .error ("Package has circular dependencies") from by
              simp only [topo_run]
              rw [if_neg he, if_pos hcy]] at hok
            simp at hok
          · rw [show topo_run edges (fuel + 1) roots ((k, e :: es2) :: rest) order =
                topo_run edges fuel roots ((e, edges e) :: (k, es2) :: rest) order from by
              simp only [topo_run]
              rw [if_neg he, if_neg hcy]] at hok
            have hem : e ∈ items := hedge k e (by rw [hpre]; simp)
            have hnd2 : (order ++ ((e, edges e) :: (k, es2) :: rest).map Prod.fst).Nodup := by
              simp only [List.map_cons]
              rw [List.nodup_middle, List.nodup_cons]
              constructor
              · intro hmem
                rcases List.mem_append.mp hmem with h | h
                · exact he h
                · rcases List.mem_cons.mp h with h | h
                  · exact hcy (Or.inl h)
                  · exact hcy (Or.inr h)
              · simpa using hnd
            have hchain2 : chain_inv edges order [] ((e, edges e) :: (k, es2) :: rest) := by
              refine ⟨⟨[], rfl, by intro e2 he2; simp at he2⟩, ?_⟩
              refine ⟨⟨pre ++ [e], by rw [hpre, List.append_assoc, List.singleton_append], ?_⟩, ?_⟩
              · intro e2 he2
                rcases List.mem_append.mp he2 with h | h
                · rcases hprem e2 h with h2 | h2
                  · exact Or.inl h2
                  · simp at h2
                · have : e2 = e := by simpa using h
                  exact Or.inr (by rw [this]; exact List.mem_cons_self e [])
              · refine chain_inv_mono edges rest order order [k] [k, e] ?_ hrest
                intro x hx
                rcases hx with hx | hx
                · exact Or.inl hx
                · rcases List.mem_cons.mp hx with hx | hx
                  · exact Or.inr (by rw [hx]; exact List.mem_cons_self k [e])
                  · simp at hx
            obtain ⟨c1, c2, c3, c4, c5, c6⟩ :=
              ih roots ((e, edges e) :: (k, es2) :: rest) order out hnd2 hgood hchain2
                hordm
                (by
                  intro p hp
                  rcases List.mem_cons.mp hp with h | h
                  · rw [h]; exact hem
                  · rcases List.mem_cons.mp h with h2 | h2
                    · rw [h2]; exact hstkm (k, e :: es2) (List.mem_cons_self _ _)
                    · exact hstkm p (List.mem_cons_of_mem _ h2))
                hrootm hok
            refine ⟨c1, c2, c3, c4, ?_, c6⟩
            intro p hp
            rcases List.mem_cons.mp hp with h | h
            · rw [h]
              exact c5 (k, es2) (List.mem_cons_of_mem _ (List.mem_cons_self _ _))
            · exact c5 p (List.mem_cons_of_mem _ (List.mem_cons_of_mem _ h))

theorem pushEdges_mem (m : K → List K) (k : K) (es : List K) (k2 : K) (x : K) :
    x ∈ pushEdges m k es k2 ↔ x ∈ m k2 ∨ (k2 = k ∧ x ∈ es) := by
  unfold pushEdges
  by_cases h : k2 = k
  · rw [if_pos h]
    subst h
    simp
  · rw [if_neg h]
    simp [h]

theorem add_order_after_spec (items : List K) (i : K) :
    ∀ (es : List K) (m m2 : K → List K),
      add_order_after items i es m = .ok m2 →
      (∀ k x, x ∈ m k → x ∈ m2 k) ∧
      (∀ k x, x ∈ m2 k → x ∈ m k ∨ x = i) := by
  intro es
  induction es with
  | nil =>
    intro m m2 hok
    have hm : m = m2 := by
      simpa [add_order_after] using hok
    subst hm
    exact ⟨fun k x hx => hx, fun k x hx => Or.inl hx⟩
  | cons e rest ih =>
    intro m m2 hok
    by_cases he : e ∈ items
    · rw [show add_order_after items i (e :: rest) m =
          add_order_after items i rest (pushEdges m e [i]) from by
        simp [add_order_after, he]] at hok
      obtain ⟨h1, h2⟩ := ih (pushEdges m e [i]) m2 hok
      constructor
      · intro k x hx
        exact h1 k x ((pushEdges_mem m e [i] k x).mpr (Or.inl hx))
      · intro k x hx
        rcases h2 k x hx with hx2 | hx2
        · rcases (pushEdges_mem m e [i] k x).mp hx2 with hx3 | hx3
          · exact Or.inl hx3
          · exact Or.inr (by simpa using hx3.2)
        · exact Or.inr hx2
    · rw [show add_order_after items i (e :: rest) m = .error ("KeyError") from by
        simp [add_order_after, he]] at hok
      simp at hok

theorem resolve_edges_go_spec (g : PlanGraph K) (items : List K) :
    ∀ (todo : List K) (m m2 : K → List K),
      (∀ k x, x ∈ m k → x ∈ items) →
      (∀ i ∈ todo, i ∈ items) →
      resolve_edges_go g items todo m = .ok m2 →
      (∀ k x, x ∈ m2 k → x ∈ items) ∧
      (∀ k x, x ∈ m k → x ∈ m2 k) ∧
      (∀ i ∈ todo, ∀ e, e ∈ items →
        ((e ∈ g.build i → e ∈ m2 i) ∧ (e ∈ g.require i → e ∈ m2 i))) := by
  intro todo
  induction todo with
  | nil =>
    intro m m2 hbound _ hok
    have hm : m = m2 := by
      simpa [resolve_edges_go] using hok
    subst hm
    exact ⟨hbound, fun k x hx => hx, by intro i hi; simp at hi⟩
  | cons i rest ih =>
    intro m m2 hbound htodo hok
    cases haoa : add_order_after items i (g.orderAfter i)
        (pushEdges
          (pushEdges
            (pushEdges m i ((g.build i).filter (fun e => decide (e ∈ items))))
            i ((g.require i).filter (fun e => decide (e ∈ items))))
          i ((g.orderBefore i).filter (fun e => decide (e ∈ items)))) with
    | error err =>
      rw [show resolve_edges_go g items (i :: rest) m = .error err from by
        simp [resolve_edges_go, haoa]] at hok
      simp at hok
    | ok m4 =>
      rw [show resolve_edges_go g items (i :: rest) m = resolve_edges_go g items rest m4 from by
        simp [resolve_edges_go, haoa]] at hok
      obtain ⟨haoa1, haoa2⟩ := add_order_after_spec items i (g.orderAfter i) _ m4 haoa
      have hm3mem : ∀ k x,
          x ∈ pushEdges
            (pushEdges
              (pushEdges m i ((g.build i).filter (fun e => decide (e ∈ items))))
              i ((g.require i).filter (fun e => decide (e ∈ items))))
            i ((g.orderBefore i).filter (fun e => decide (e ∈ items))) k →
          x ∈ m k ∨ x ∈ items := by
        intro k x hx
        rcases (pushEdges_mem _ i _ k x).mp hx with hx | hx
        · rcases (pushEdges_mem _ i _ k x).mp hx with hx | hx
          · rcases (pushEdges_mem _ i _ k x).mp hx with hx | hx
            · exact Or.inl hx
            · exact Or.inr (of_decide_eq_true ((List.mem_filter.mp hx.2).2))
          · exact Or.inr (of_decide_eq_true ((List.mem_filter.mp hx.2).2))
        · exact Or.inr (of_decide_eq_true ((List.mem_filter.mp hx.2).2))
      have hbound4 : ∀ k x, x ∈ m4 k → x ∈ items := by
        intro k x hx
        rcases haoa2 k x hx with hx | hx
        · rcases hm3mem k x hx with hx2 | hx2
          · exact hbound k x hx2
          · exact hx2
        · exact hx ▸ htodo i (List.mem_cons_self i rest)
      obtain ⟨c1, c2, c3⟩ := ih m4 m2 hbound4
        (fun j hj => htodo j (List.mem_cons_of_mem i hj)) hok
      have hmono : ∀ k x, x ∈ m k → x ∈ m2 k := by
        intro k x hx
        refine c2 k x (haoa1 k x ?_)
        exact (pushEdges_mem _ i _ k x).mpr (Or.inl
          ((pushEdges_mem _ i _ k x).mpr (Or.inl
            ((pushEdges_mem _ i _ k x).mpr (Or.inl hx)))))
      refine ⟨c1, hmono, ?_⟩
      intro j hj e hei
      rcases List.mem_cons.mp hj with hj | hj
      · subst hj
        constructor
        · intro hb
          refine c2 j e (haoa1 j e ?_)
          exact (pushEdges_mem _ j _ j e).mpr (Or.inl
            ((pushEdges_mem _ j _ j e).mpr (Or.inl
              ((pushEdges_mem _ j _ j e).mpr (Or.inr ⟨rfl,
                List.mem_filter.mpr ⟨hb, decide_eq_true hei⟩⟩)))))
        · intro hr
          refine c2 j e (haoa1 j e ?_)
          exact (pushEdges_mem _ j _ j e).mpr (Or.inl
            ((pushEdges_mem _ j _ j e).mpr (Or.inr ⟨rfl,
              List.mem_filter.mpr ⟨hr, decide_eq_true hei⟩⟩)))
      · exact c3 j hj e hei

theorem resolve_edges_spec (g : PlanGraph K) (items : List K) (m2 : K → List K)
    (hok : resolve_edges g items = .ok m2) :
    (∀ k x, x ∈ m2 k → x ∈ items) ∧
    (∀ i ∈ items, ∀ e, e ∈ items →
      ((e ∈ g.build i → e ∈ m2 i) ∧ (e ∈ g.require i → e ∈ m2 i))) := by
  obtain ⟨c1, _, c3⟩ := resolve_edges_go_spec g items items (fun _ => []) m2
    (by intro k x hx; simp at hx) (fun i hi => hi) hok
  exact ⟨c1, c3⟩

theorem do_ordering_spec (g : PlanGraph K) (items : List K)
    (sortFn : List K → List K) (fuel : Nat) (ord : List K)
    (hsort : ∀ l : List K, (sortFn l).Perm l)
    (hnd : items.Nodup)
    (hclo : ∀ i ∈ items, ∀ e, e ∈ g.build i ∨ e ∈ g.require i → e ∈ items)
    (hok : do_ordering g items sortFn fuel = .ok ord) :
    ord.Perm items ∧
    (∀ k ∈ ord, ∀ e, e ∈ g.build k ∨ e ∈ g.require k →
      e ∈ ord ∧ ord.indexOf e < ord.indexOf k) ∧
    (∀ k ∈ ord, ¬ Relation.TransGen
      (fun a b => b ∈ g.build a ∨ b ∈ g.require a) k k) := by
  rcases hre : resolve_edges g items with e | edgeFn
  · rw [show do_ordering g items sortFn fuel = .error e from by
      simp [do_ordering, hre]] at hok
    simp at hok
  · rw [show do_ordering g items sortFn fuel =
        topo_run (fun k => sortFn (edgeFn k)) fuel (sortFn items) [] [] from by
      simp [do_ordering, hre]] at hok
    obtain ⟨hr1, hr2⟩ := resolve_edges_spec g items edgeFn hre
    have hedge : ∀ k e, e ∈ sortFn (edgeFn k) → e ∈ items := by
      intro k e he
      exact hr1 k e ((hsort (edgeFn k)).mem_iff.mp he)
    obtain ⟨c1, c2, c3, _, _, c6⟩ :=
      topo_run_spec (fun k => sortFn (edgeFn k)) items hedge fuel (sortFn items) [] [] ord
        (by simp) TopoGood.nil trivial
        (by intro x hx; simp at hx)
        (by intro p hp; simp at hp)
        (fun r hr => (hsort items).mem_iff.mp hr)
        hok
    have hmemiff : ∀ x, x ∈ ord ↔ x ∈ items := by
      intro x
      exact ⟨fun hx => c3 x hx, fun hx => c6 x ((hsort items).mem_iff.mpr hx)⟩
    have hperm : ord.Perm items := by
      refine (c1.subperm (fun x hx => (hmemiff x).mp hx)).antisymm
        (hnd.subperm (fun x hx => (hmemiff x).mpr hx))
    have hpos : ∀ k ∈ ord, ∀ e, e ∈ g.build k ∨ e ∈ g.require k →
        e ∈ ord ∧ ord.indexOf e < ord.indexOf k := by
      intro k hk e hedge2
      have hki : k ∈ items := (hmemiff k).mp hk
      have hei : e ∈ items := hclo k hki e hedge2
      have hef : e ∈ edgeFn k := by
        rcases hedge2 with hb | hr
        · exact (hr2 k hki e hei).1 hb
        · exact (hr2 k hki e hei).2 hr
      have hes : e ∈ sortFn (edgeFn k) := (hsort (edgeFn k)).mem_iff.mpr hef
      exact topoGood_indexOf (fun k2 => sortFn (edgeFn k2)) ord c2 c1 k hk e hes
    refine ⟨hperm, hpos, ?_⟩
    intro k hk hcyc
    have hmain : ∀ a b, Relation.TransGen
        (fun a2 b2 => b2 ∈ g.build a2 ∨ b2 ∈ g.require a2) a b → a ∈ ord →
        Relation.TransGen (fun a2 b2 => b2 ∈ sortFn (edgeFn a2)) a b ∧ b ∈ ord := by
      intro a b h
      induction h with
      | @single b2 h1 =>
        intro ha
        have hai : a ∈ items := (hmemiff a).mp ha
        have hbi : b2 ∈ items := hclo a hai b2 h1
        have hbe : b2 ∈ sortFn (edgeFn a) := by
          rcases h1 with hb | hr
          · exact (hsort (edgeFn a)).mem_iff.mpr ((hr2 a hai b2 hbi).1 hb)
          · exact (hsort (edgeFn a)).mem_iff.mpr ((hr2 a hai b2 hbi).2 hr)
        exact ⟨Relation.TransGen.single hbe, (hmemiff b2).mpr hbi⟩
      | @tail b2 c2 _ h2 ih =>
        intro ha
        obtain ⟨htg, hbord⟩ := ih ha
        have hbi : b2 ∈ items := (hmemiff b2).mp hbord
        have hci : c2 ∈ items := hclo b2 hbi c2 h2
        have hce : c2 ∈ sortFn (edgeFn b2) := by
          rcases h2 with hb | hr
          · exact (hsort (edgeFn b2)).mem_iff.mpr ((hr2 b2 hbi c2 hci).1 hb)
          · exact (hsort (edgeFn b2)).mem_iff.mpr ((hr2 b2 hbi c2 hci).2 hr)
        exact ⟨Relation.TransGen.tail htg hce, (hmemiff c2).mpr hci⟩
    exact topoGood_acyclic (fun k2 => sortFn (edgeFn k2)) ord c2 c1 k hk
      (hmain k k hcyc hk).1

/-- C1.  For every configuration (abstracted as the edge maps produced by
`_materialize_item`) and wanted set on which `compute_plan` succeeds, the
emitted order is a permutation of the materialized item set, it is
cycle-free with respect to the build/require edges, and every build/require
edge target of every item exists in the plan and occupies a strictly
earlier position in the emitted order than the item itself. -/
theorem claim_C1_plan_invariants (g : PlanGraph K) (sortFn : List K → List K)
    (check update recursive restrictUpdates : Bool)
    (missing updatable : K → Bool) (timestamp : K → Option Int)
    (wanted : List K) (fuel1 fuel2 fuel3 : Nat)
    (items ord : List K) (st : ActState K) (spans : List K)
    (hsort : ∀ l : List K, (sortFn l).Perm l)
    (hcp : compute_plan g sortFn check update recursive restrictUpdates missing
      updatable timestamp wanted fuel1 fuel2 fuel3 = .ok (items, ord, st, spans)) :
    ord.Perm items ∧
    (∀ w ∈ wanted, w ∈ items) ∧
    (∀ k ∈ items, ∀ e, e ∈ g.build k ∨ e ∈ g.require k → e ∈ items) ∧
    (∀ k ∈ ord, ∀ e, e ∈ g.build k ∨ e ∈ g.require k →
      e ∈ ord ∧ ord.indexOf e < ord.indexOf k) ∧
    (∀ k ∈ ord, ¬ Relation.TransGen
      (fun a b => b ∈ g.build a ∨ b ∈ g.require a) k k) := by
  rcases hm : do_materialization g wanted fuel1 with e | items0
  · rw [show compute_plan g sortFn check update recursive restrictUpdates missing
        updatable timestamp wanted fuel1 fuel2 fuel3 = .error e from by
      simp [compute_plan, hm]] at hcp
    simp at hcp
  · rcases ho : do_ordering g items0 sortFn fuel2 with e | ord0
    · rw [show compute_plan g sortFn check update recursive restrictUpdates missing
          updatable timestamp wanted fuel1 fuel2 fuel3 = .error e from by
        simp [compute_plan, hm, ho]] at hcp
      simp at hcp
    · rcases ha : do_activation check update recursive restrictUpdates missing
          updatable timestamp g ord0 wanted fuel3 with e | stp
      · rw [show compute_plan g sortFn check update recursive restrictUpdates missing
            updatable timestamp wanted fuel1 fuel2 fuel3 = .error e from by
          simp [compute_plan, hm, ho, ha]] at hcp
        simp at hcp
      · obtain ⟨st0, spans0⟩ := stp
        rw [show compute_plan g sortFn check update recursive restrictUpdates missing
            updatable timestamp wanted fuel1 fuel2 fuel3 =
            .ok (items0, ord0, st0, spans0) from by
          simp [compute_plan, hm, ho, ha]] at hcp
        have heq : items0 = items ∧ ord0 = ord := by
          have h1 := hcp
          simp only [Except.ok.injEq, Prod.mk.injEq] at h1
          exact ⟨h1.1, h1.2.1⟩
        obtain ⟨hi0, ho0⟩ := heq
        subst hi0
        subst ho0
        obtain ⟨hnd0, hw0, hclo0⟩ := do_materialization_spec g wanted fuel1 items0 hm
        obtain ⟨hperm, hpos, hacyc⟩ :=
          do_ordering_spec g items0 sortFn fuel2 ord0 hsort hnd0 hclo0 ho
        exact ⟨hperm, hw0, hclo0, hpos, hacyc⟩

/-- Witness for C1 on the concrete two-item graph `gExample` with wanted
item 0: materialization yields [0, 1] and the emitted order is [1, 0]. -/
theorem claim_C1_witness :
    ([1, 0] : List Nat).Perm [0, 1] ∧
    (∀ w ∈ ([0] : List Nat), w ∈ ([0, 1] : List Nat)) ∧
    (∀ k ∈ ([0, 1] : List Nat), ∀ e,
      e ∈ gExample.build k ∨ e ∈ gExample.require k → e ∈ ([0, 1] : List Nat)) ∧
    (∀ k ∈ ([1, 0] : List Nat), ∀ e,
      e ∈ gExample.build k ∨ e ∈ gExample.require k →
      e ∈ ([1, 0] : List Nat) ∧
        ([1, 0] : List Nat).indexOf e < ([1, 0] : List Nat).indexOf k) ∧
    (∀ k ∈ ([1, 0] : List Nat), ¬ Relation.TransGen
      (fun a b => b ∈ gExample.build a ∨ b ∈ gExample.require a) k k) :=
  claim_C1_plan_invariants gExample id false false false false (fun _ => true)
    (fun _ => false) (fun _ => none) [0] 10 20 20 [0, 1] [1, 0]
    ⟨[1, 0], [1, 0]⟩ [1, 0] (fun l => List.Perm.refl l) rfl

theorem activation_wanted_check_not_missing (missing : K → Bool) (g : PlanGraph K)
    (fuel : Nat) :
    ∀ (ws : List K) (st : ActState K) (spans : List K),
      (∀ w ∈ ws, missing w = false) →
      ∃ spans2, activation_wanted true missing g fuel ws (st, spans) = .ok (st, spans2) := by
  intro ws
  induction ws with
  | nil => intro st spans _; exact ⟨spans, rfl⟩
  | cons w rest ih =>
    intro st spans hmiss
    have hw : missing w = false := hmiss w (List.mem_cons_self w rest)
    rw [show activation_wanted true missing g fuel (w :: rest) (st, spans) =
        activation_wanted true missing g fuel rest (st, w :: spans) from by
      simp [activation_wanted, hw]]
    exact ih st (w :: spans) (fun w2 hw2 => hmiss w2 (List.mem_cons_of_mem w hw2))

/-- C2.  When a plan is computed for a wanted set with `check` enabled (and
without `update`/`recursive`), and every wanted subject's probe reports
not-missing — with all of its build/require dependencies' probes reporting
not-missing as well — the resulting active set is empty. -/
theorem claim_C2_check_empty_active (g : PlanGraph K) (sortFn : List K → List K)
    (restrictUpdates : Bool) (missing updatable : K → Bool)
    (timestamp : K → Option Int) (wanted : List K) (fuel1 fuel2 fuel3 : Nat)
    (items ord : List K) (st : ActState K) (spans : List K)
    (hmiss : ∀ w ∈ wanted, missing w = false)
    (hdeps : ∀ w ∈ wanted, ∀ e, e ∈ g.build w ∨ e ∈ g.require w → missing e = false)
    (hcp : compute_plan g sortFn true false false restrictUpdates missing updatable
      timestamp wanted fuel1 fuel2 fuel3 = .ok (items, ord, st, spans)) :
    st.activeL = [] := by
  rcases hm : do_materialization g wanted fuel1 with e | items0
  · rw [show compute_plan g sortFn true false false restrictUpdates missing updatable
        timestamp wanted fuel1 fuel2 fuel3 = .error e from by
      simp [compute_plan, hm]] at hcp
    simp at hcp
  · rcases ho : do_ordering g items0 sortFn fuel2 with e | ord0
    · rw [show compute_plan g sortFn true false false restrictUpdates missing updatable
          timestamp wanted fuel1 fuel2 fuel3 = .error e from by
        simp [compute_plan, hm, ho]] at hcp
      simp at hcp
    · obtain ⟨spans1, hwanted⟩ :=
        activation_wanted_check_not_missing missing g fuel3 wanted ⟨[], []⟩ [] hmiss
      have hact : do_activation true false false restrictUpdates missing updatable
          timestamp g ord0 wanted fuel3 =
          .ok (⟨[], []⟩, propagate_span g ord0 spans1) := by
        simp [do_activation, hwanted]
      rw [show compute_plan g sortFn true false false restrictUpdates missing updatable
          timestamp wanted fuel1 fuel2 fuel3 =
          .ok (items0, ord0, ⟨[], []⟩, propagate_span g ord0 spans1) from by
        simp [compute_plan, hm, ho, hact]] at hcp
      have hst : st = (⟨[], []⟩ : ActState K) := by
        have h1 := hcp
        simp only [Except.ok.injEq, Prod.mk.injEq] at h1
        exact h1.2.2.1.symm
      rw [hst]

/-- Witness for C2 on `gExample` with wanted item 0 and nothing missing. -/
theorem claim_C2_witness :
    (⟨[], []⟩ : ActState Nat).activeL = [] :=
  claim_C2_check_empty_active gExample id false (fun _ => false) (fun _ => false)
    (fun _ => none) [0] 10 20 20 [0, 1] [1, 0] ⟨[], []⟩ [1, 0]
    (fun w _ => rfl) (fun w _ e _ => rfl) rfl

theorem indexOf_append_cons (l1 l2 : List K) (k : K) (hk : k ∉ l1) :
    (l1 ++ k :: l2).indexOf k = l1.length := by
  induction l1 with
  | nil => simp [List.indexOf_cons_self]
  | cons a l1x ih =>
    have ha : a ≠ k := by
      intro h
      exact hk (h ▸ List.mem_cons_self a l1x)
    rw [List.cons_append, List.indexOf_cons_ne _ ha,
      ih (fun h => hk (List.mem_cons_of_mem a h))]
    rfl

theorem run_plan_loop_spec (wanted : List K) (edgeList : K → List K)
    (outcome : K → Bool) (active : K → Bool) :
    ∀ (sched done : List K) (st0 : K → ExecutionStatus) (af : Bool),
      (done ++ sched).Nodup →
      (∀ k, st0 k ≠ ExecutionStatus.NULL ↔ k ∈ done) →
      (∀ k ∈ done, st0 k = ExecutionStatus.SUCCESS ∨
        st0 k = ExecutionStatus.STEP_FAILED ∨
        st0 k = ExecutionStatus.PREREQS_FAILED) →
      (∀ l1 k l2, sched = l1 ++ k :: l2 → ∀ e ∈ edgeList k, active e = true →
        e ∈ done ++ l1) →
      ∃ st afOut,
        run_plan_loop true false wanted edgeList outcome active sched st0 af =
          .ok (st, afOut) ∧
        (∀ k, st k ≠ ExecutionStatus.NULL ↔ (k ∈ done ∨ k ∈ sched)) ∧
        (∀ k, (k ∈ done ∨ k ∈ sched) →
          st k = ExecutionStatus.SUCCESS ∨ st k = ExecutionStatus.STEP_FAILED ∨
          st k = ExecutionStatus.PREREQS_FAILED) ∧
        (∀ k ∈ done, st k = st0 k) ∧
        (∀ k ∈ sched,
          (edgeList k).any
            (fun e => active e && decide (st e ≠ ExecutionStatus.SUCCESS)) = true →
          st k = ExecutionStatus.PREREQS_FAILED) := by
  intro sched
  induction sched with
  | nil =>
    intro done st0 af hnd hiff hstat _
    refine ⟨st0, af, rfl, ?_, ?_, fun k _ => rfl, by intro k hk; simp at hk⟩
    · intro k
      rw [hiff k]
      simp
    · intro k hk
      rcases hk with hk | hk
      · exact hstat k hk
      · simp at hk
  | cons item rest ih =>
    intro done st0 af hnd hiff hstat hprec
    have hitemdone : item ∉ done := by
      intro hmem
      exact (List.nodup_append.mp hnd).2.2 hmem (List.mem_cons_self item rest)
    have hpr0 : ∀ e ∈ edgeList item, active e = true → e ∈ done := by
      intro e he hae
      have h := hprec [] item rest rfl e he hae
      simpa using h
    have hnd2 : ((done ++ [item]) ++ rest).Nodup := by
      rw [List.append_assoc, List.singleton_append]
      exact hnd
    have hprec2 : ∀ l1 k l2, rest = l1 ++ k :: l2 → ∀ e ∈ edgeList k,
        active e = true → e ∈ (done ++ [item]) ++ l1 := by
      intro l1 k l2 hsplit e he hae
      have h := hprec (item :: l1) k l2 (by rw [hsplit]; rfl) e he hae
      rcases List.mem_append.mp h with h2 | h2
      · exact List.mem_append.mpr (Or.inl (List.mem_append.mpr (Or.inl h2)))
      · rcases List.mem_cons.mp h2 with h3 | h3
        · exact List.mem_append.mpr (Or.inl (List.mem_append.mpr (Or.inr (by simp [h3]))))
        · exact List.mem_append.mpr (Or.inr h3)
    by_cases hc : (edgeList item).any
        (fun e => active e && decide (st0 e ≠ ExecutionStatus.SUCCESS)) = true
    · have hrun : run_plan_loop true false wanted edgeList outcome active
          (item :: rest) st0 af =
          run_plan_loop true false wanted edgeList outcome active rest
            (setStatus st0 item ExecutionStatus.PREREQS_FAILED) true := by
        simp only [run_plan_loop, Bool.true_and]
        rw [if_pos hc]
      have hiff2 : ∀ k, setStatus st0 item ExecutionStatus.PREREQS_FAILED k ≠
          ExecutionStatus.NULL ↔ k ∈ done ++ [item] := by
        intro k
        by_cases hk : k = item
        · rw [hk]
          simp [setStatus]
        · rw [show setStatus st0 item ExecutionStatus.PREREQS_FAILED k = st0 k from by
            simp [setStatus, hk]]
          rw [hiff k]
          simp [hk]
      have hstat2 : ∀ k ∈ done ++ [item],
          setStatus st0 item ExecutionStatus.PREREQS_FAILED k = ExecutionStatus.SUCCESS ∨
          setStatus st0 item ExecutionStatus.PREREQS_FAILED k = ExecutionStatus.STEP_FAILED ∨
          setStatus st0 item ExecutionStatus.PREREQS_FAILED k = ExecutionStatus.PREREQS_FAILED := by
        intro k hk
        by_cases hki : k = item
        · rw [hki]
          simp [setStatus]
        · rw [show setStatus st0 item ExecutionStatus.PREREQS_FAILED k = st0 k from by
            simp [setStatus, hki]]
          rcases List.mem_append.mp hk with h | h
          · exact hstat k h
          · exact absurd (by simpa using h) hki
      obtain ⟨st, afOut, hok, c1, c2, c3, c4⟩ :=
        ih (done ++ [item]) (setStatus st0 item ExecutionStatus.PREREQS_FAILED) true
          hnd2 hiff2 hstat2 hprec2
      refine ⟨st, afOut, by rw [hrun]; exact hok, ?_, ?_, ?_, ?_⟩
      · intro k
        rw [c1 k]
        simp only [List.mem_append, List.mem_cons, List.mem_singleton]
        tauto
      · intro k hk
        refine c2 k ?_
        simp only [List.mem_append, List.mem_singleton]
        rcases hk with hk | hk
        · exact Or.inl (Or.inl hk)
        · rcases List.mem_cons.mp hk with hk2 | hk2
          · exact Or.inl (Or.inr hk2)
          · exact Or.inr hk2
      · intro k hk
        have hki : k ≠ item := fun h => hitemdone (h ▸ hk)
        rw [c3 k (List.mem_append.mpr (Or.inl hk))]
        simp [setStatus, hki]
      · intro k hk _
        rcases List.mem_cons.mp hk with hk2 | hk2
        · rw [hk2, c3 item (List.mem_append.mpr (Or.inr (List.mem_singleton_self item)))]
          simp [setStatus]
        · exact c4 k hk2 (by assumption)
    · have hsucc0 : ∀ e ∈ edgeList item, active e = true →
          st0 e = ExecutionStatus.SUCCESS := by
        intro e he hae
        by_contra hne
        exact hc (List.any_eq_true.mpr ⟨e, he, by simp [hae, hne]⟩)
      by_cases hoc : outcome item = true
      · have hrun : run_plan_loop true false wanted edgeList outcome active
            (item :: rest) st0 af =
            run_plan_loop true false wanted edgeList outcome active rest
              (setStatus st0 item ExecutionStatus.SUCCESS) af := by
          simp only [run_plan_loop, Bool.true_and, Bool.false_and]
          rw [if_neg hc, if_neg (by simp), if_pos hoc]
        have hiff2 : ∀ k, setStatus st0 item ExecutionStatus.SUCCESS k ≠
            ExecutionStatus.NULL ↔ k ∈ done ++ [item] := by
          intro k
          by_cases hk : k = item
          · rw [hk]
            simp [setStatus]
          · rw [show setStatus st0 item ExecutionStatus.SUCCESS k = st0 k from by
              simp [setStatus, hk]]
            rw [hiff k]
            simp [hk]
        have hstat2 : ∀ k ∈ done ++ [item],
            setStatus st0 item ExecutionStatus.SUCCESS k = ExecutionStatus.SUCCESS ∨
            setStatus st0 item ExecutionStatus.SUCCESS k = ExecutionStatus.STEP_FAILED ∨
            setStatus st0 item ExecutionStatus.SUCCESS k = ExecutionStatus.PREREQS_FAILED := by
          intro k hk
          by_cases hki : k = item
          · rw [hki]
            simp [setStatus]
          · rw [show setStatus st0 item ExecutionStatus.SUCCESS k = st0 k from by
              simp [setStatus, hki]]
            rcases List.mem_append.mp hk with h | h
            · exact hstat k h
            · exact absurd (by simpa using h) hki
        obtain ⟨st, afOut, hok, c1, c2, c3, c4⟩ :=
          ih (done ++ [item]) (setStatus st0 item ExecutionStatus.SUCCESS) af
            hnd2 hiff2 hstat2 hprec2
        refine ⟨st, afOut, by rw [hrun]; exact hok, ?_, ?_, ?_, ?_⟩
        · intro k
          rw [c1 k]
          simp only [List.mem_append, List.mem_cons, List.mem_singleton]
          tauto
        · intro k hk
          refine c2 k ?_
          simp only [List.mem_append, List.mem_singleton]
          rcases hk with hk | hk
          · exact Or.inl (Or.inl hk)
          · rcases List.mem_cons.mp hk with hk2 | hk2
            · exact Or.inl (Or.inr hk2)
            · exact Or.inr hk2
        · intro k hk
          have hki : k ≠ item := fun h => hitemdone (h ▸ hk)
          rw [c3 k (List.mem_append.mpr (Or.inl hk))]
          simp [setStatus, hki]
        · intro k hk hany
          rcases List.mem_cons.mp hk with hk2 | hk2
          · exfalso
            obtain ⟨e, he, hprop⟩ := List.any_eq_true.mp (hk2 ▸ hany)
            simp only [Bool.and_eq_true, decide_eq_true_eq] at hprop
            have hed : e ∈ done := hpr0 e he hprop.1
            have hei : e ≠ item := fun h => hitemdone (h ▸ hed)
            have hfin : st e = st0 e := by
              rw [c3 e (List.mem_append.mpr (Or.inl hed))]
              simp [setStatus, hei]
            exact hprop.2 (hfin.trans (hsucc0 e he hprop.1))
          · exact c4 k hk2 hany
      · have hrun : run_plan_loop true false wanted edgeList outcome active
            (item :: rest) st0 af =
            run_plan_loop true false wanted edgeList outcome active rest
              (setStatus st0 item ExecutionStatus.STEP_FAILED) true := by
          simp only [run_plan_loop, Bool.true_and, Bool.false_and, Bool.not_true]
          rw [if_neg hc, if_neg (by simp), if_neg hoc, if_neg (by simp)]
        have hiff2 : ∀ k, setStatus st0 item ExecutionStatus.STEP_FAILED k ≠
            ExecutionStatus.NULL ↔ k ∈ done ++ [item] := by
          intro k
          by_cases hk : k = item
          · rw [hk]
            simp [setStatus]
          · rw [show setStatus st0 item ExecutionStatus.STEP_FAILED k = st0 k from by
              simp [setStatus, hk]]
            rw [hiff k]
            simp [hk]
        have hstat2 : ∀ k ∈ done ++ [item],
            setStatus st0 item ExecutionStatus.STEP_FAILED k = ExecutionStatus.SUCCESS ∨
            setStatus st0 item ExecutionStatus.STEP_FAILED k = ExecutionStatus.STEP_FAILED ∨
            setStatus st0 item ExecutionStatus.STEP_FAILED k = ExecutionStatus.PREREQS_FAILED := by
          intro k hk
          by_cases hki : k = item
          · rw [hki]
            simp [setStatus]
          · rw [show setStatus st0 item ExecutionStatus.STEP_FAILED k = st0 k from by
              simp [setStatus, hki]]
            rcases List.mem_append.mp hk with h | h
            · exact hstat k h
            · exact absurd (by simpa using h) hki
        obtain ⟨st, afOut, hok, c1, c2, c3, c4⟩ :=
          ih (done ++ [item]) (setStatus st0 item ExecutionStatus.STEP_FAILED) true
            hnd2 hiff2 hstat2 hprec2
        refine ⟨st, afOut, by rw [hrun]; exact hok, ?_, ?_, ?_, ?_⟩
        · intro k
          rw [c1 k]
          simp only [List.mem_append, List.mem_cons, List.mem_singleton]
          tauto
        · intro k hk
          refine c2 k ?_
          simp only [List.mem_append, List.mem_singleton]
          rcases hk with hk | hk
          · exact Or.inl (Or.inl hk)
          · rcases List.mem_cons.mp hk with hk2 | hk2
            · exact Or.inl (Or.inr hk2)
            · exact Or.inr hk2
        · intro k hk
          have hki : k ≠ item := fun h => hitemdone (h ▸ hk)
          rw [c3 k (List.mem_append.mpr (Or.inl hk))]
          simp [setStatus, hki]
        · intro k hk hany
          rcases List.mem_cons.mp hk with hk2 | hk2
          · exfalso
            obtain ⟨e, he, hprop⟩ := List.any_eq_true.mp (hk2 ▸ hany)
            simp only [Bool.and_eq_true, decide_eq_true_eq] at hprop
            have hed : e ∈ done := hpr0 e he hprop.1
            have hei : e ≠ item := fun h => hitemdone (h ▸ hed)
            have hfin : st e = st0 e := by
              rw [c3 e (List.mem_append.mpr (Or.inl hed))]
              simp [setStatus, hei]
            exact hprop.2 (hfin.trans (hsucc0 e he hprop.1))
          · exact c4 k hk2 hany

/-- C3.  Under `keep_going` (with `only_wanted` at its default off), after
`run_plan` finishes, every active item has a final execution status in
{SUCCESS, STEP_FAILED, PREREQS_FAILED}, the non-NULL statuses are exactly
the active scheduled items (no active item is left NULL), and an item whose
edge list contains an active non-success edge is skipped with
PREREQS_FAILED rather than executed.  The precedence hypothesis is the
ordering-stage guarantee that every active edge target of a scheduled item
is scheduled strictly earlier. -/
theorem claim_C3_keep_going_statuses (wanted : List K) (edgeList : K → List K)
    (outcome : K → Bool) (active : K → Bool) (order : List K)
    (hnd : order.Nodup)
    (hprec : ∀ k ∈ order.filter (fun k2 => active k2), ∀ e ∈ edgeList k,
      active e = true → e ∈ order.filter (fun k2 => active k2) ∧
        (order.filter (fun k2 => active k2)).indexOf e <
          (order.filter (fun k2 => active k2)).indexOf k) :
    ∃ st anyFailed,
      run_plan true false wanted edgeList outcome active order = .ok (st, anyFailed) ∧
      (∀ k, st k ≠ ExecutionStatus.NULL ↔ (k ∈ order ∧ active k = true)) ∧
      (∀ k ∈ order, active k = true →
        st k = ExecutionStatus.SUCCESS ∨ st k = ExecutionStatus.STEP_FAILED ∨
        st k = ExecutionStatus.PREREQS_FAILED) ∧
      (∀ k ∈ order, active k = true →
        (edgeList k).any
          (fun e => active e && decide (st e ≠ ExecutionStatus.SUCCESS)) = true →
        st k = ExecutionStatus.PREREQS_FAILED) := by
  have hndf : (order.filter (fun k2 => active k2)).Nodup := hnd.filter _
  have hsplitprec : ∀ l1 k l2, order.filter (fun k2 => active k2) = l1 ++ k :: l2 →
      ∀ e ∈ edgeList k, active e = true → e ∈ ([] : List K) ++ l1 := by
    intro l1 k l2 hsplit e he hae
    have hks : k ∈ order.filter (fun k2 => active k2) := by
      rw [hsplit]
      simp
    obtain ⟨hes, hidx⟩ := hprec k hks e he hae
    have hknl1 : k ∉ l1 := by
      intro hmem
      have hnds := hndf
      rw [hsplit, List.nodup_append] at hnds
      exact hnds.2.2 hmem (List.mem_cons_self k l2)
    have hidxk : (order.filter (fun k2 => active k2)).indexOf k = l1.length := by
      rw [hsplit]
      exact indexOf_append_cons l1 l2 k hknl1
    have htake : e ∈ (order.filter (fun k2 => active k2)).take l1.length := by
      refine mem_take_of_indexOf_lt _ e l1.length hes ?_
      rw [← hidxk]
      exact hidx
    rw [hsplit, List.take_left] at htake
    simpa using htake
  obtain ⟨st, afOut, hok, c1, c2, _, c4⟩ :=
    run_plan_loop_spec wanted edgeList outcome active
      (order.filter (fun k2 => active k2)) [] (fun _ => ExecutionStatus.NULL) false
      (by simpa using hndf) (by intro k; simp) (by intro k hk; simp at hk)
      hsplitprec
  refine ⟨st, afOut, hok, ?_, ?_, ?_⟩
  · intro k
    rw [c1 k]
    simp [List.mem_filter]
  · intro k hk hak
    exact c2 k (Or.inr (List.mem_filter.mpr ⟨hk, hak⟩))
  · intro k hk hak hany
    exact c4 k (List.mem_filter.mpr ⟨hk, hak⟩) hany

/-- Witness for C3: two active items; item 0 fails its step, item 1
depends on it and is skipped with PREREQS_FAILED; the run still returns
ok and every status is in the allowed set. -/
theorem claim_C3_witness :
    ∃ st anyFailed,
      run_plan true false ([] : List Nat)
        (fun k => if k = 1 then [0] else []) (fun k => decide (k = 1))
        (fun _ => true) [0, 1] = .ok (st, anyFailed) ∧
      (∀ k, st k ≠ ExecutionStatus.NULL ↔ (k ∈ ([0, 1] : List Nat) ∧ (fun _ : Nat => true) k = true)) ∧
      (∀ k ∈ ([0, 1] : List Nat), (fun _ : Nat => true) k = true →
        st k = ExecutionStatus.SUCCESS ∨ st k = ExecutionStatus.STEP_FAILED ∨
        st k = ExecutionStatus.PREREQS_FAILED) ∧
      (∀ k ∈ ([0, 1] : List Nat), (fun _ : Nat => true) k = true →
        ((fun k2 : Nat => if k2 = 1 then [0] else []) k).any
          (fun e => (fun _ : Nat => true) e &&
            decide (st e ≠ ExecutionStatus.SUCCESS)) = true →
        st k = ExecutionStatus.PREREQS_FAILED) :=
  claim_C3_keep_going_statuses [] (fun k => if k = 1 then [0] else [])
    (fun k => decide (k = 1)) (fun _ => true) [0, 1] (by decide) (by decide)

end PlanProofs


end Xbstrap
